import Mathlib

/-!
Verification development for the twisty-puzzle search engine.

This file gives a shallow embedding of the core of the repository:

* `src/idasearch.rs` — the `Solvable` contract, the recursive DFS and the
  iterative-deepening outer loop of `solve`;
* `src/idasearch/heuristic_helpers.rs` — `BoundedStateCache` and `bounded_cache`;
* `src/cubesearch.rs` — the `State` contract and `enumerate_state_space_started`;
* `src/scrambles.rs` — `random_scramble`;
* `src/random_helpers.rs` and `src/random_helpers/permutations.rs` — `TwoParity`,
  `flips_with_parity`, `Permutation::parity`, `with_parity`, `compose`;
* `src/moves.rs` — `CubeMoveAmt`, `CornerTwistAmt` and their `reverse`.

Rust's `HashMap`/`HashSet` are modelled by association lists and `Finset`s;
traits become structures of functions; the RNG is modelled by passing the drawn
value (state, permutation, flip sequence) explicitly.  Imperative loops become
structural recursions; where a Rust loop has no intrinsic bound (the enumerator)
the model takes explicit fuel and we prove that a concrete fuel suffices.
-/

namespace Twisty

/-! ### Moves (`src/moves.rs`) -/

/-- Embeds `enum CubeMoveAmt { One, Two, Rev }`. -/
inductive CubeMoveAmt
  | One
  | Two
  | Rev
deriving DecidableEq, Repr

/-- Embeds `impl CanReverse for CubeMoveAmt`. -/
def CubeMoveAmt.reverse : CubeMoveAmt → CubeMoveAmt
  | CubeMoveAmt.One => CubeMoveAmt.Rev
  | CubeMoveAmt.Two => CubeMoveAmt.Two
  | CubeMoveAmt.Rev => CubeMoveAmt.One

/-- Embeds `enum CornerTwistAmt { Cw, Ccw }`. -/
inductive CornerTwistAmt
  | Cw
  | Ccw
deriving DecidableEq, Repr

/-- Embeds `impl CanReverse for CornerTwistAmt`. -/
def CornerTwistAmt.reverse : CornerTwistAmt → CornerTwistAmt
  | CornerTwistAmt.Cw => CornerTwistAmt.Ccw
  | CornerTwistAmt.Ccw => CornerTwistAmt.Cw

/-! ### Parity helpers (`src/random_helpers.rs`) -/

/-- Embeds `enum TwoParity { Even, Odd }`. -/
inductive TwoParity
  | Even
  | Odd
deriving DecidableEq, Repr

/-- Embeds `enum EdgeOrientation { Normal, Flipped }` from `src/orientations.rs`. -/
inductive EdgeOrientation
  | Normal
  | Flipped
deriving DecidableEq, Repr

/-- Embeds `flips_with_parity` from `src/random_helpers.rs`.  The RNG is
modelled by `draws`, giving the successive results of `EdgeOrientation::random`.
The result is `none` exactly when the Rust function panics: for `len == 0` and
`desired == Odd` via the explicit `panic!`, and for `len == 0` and
`desired == Even` because `(0..len - 1)` underflows `usize` subtraction. -/
def flips_with_parity (draws : Nat → EdgeOrientation) (len : Nat) (desired : TwoParity) :
    Option (List EdgeOrientation) :=
  if len = 0 then none
  else
    let out := (List.range (len - 1)).map draws
    let cnt := out.countP (fun e => decide (e = EdgeOrientation.Flipped))
    let current_parity := if cnt % 2 = 0 then TwoParity.Even else TwoParity.Odd
    if current_parity = desired then some (out ++ [EdgeOrientation.Normal])
    else some (out ++ [EdgeOrientation.Flipped])

/-- Parity of the number of `Flipped` entries of a flip vector, the quantity
`flips_with_parity` is specified to control. -/
def flip_count_parity (v : List EdgeOrientation) : TwoParity :=
  if v.countP (fun e => decide (e = EdgeOrientation.Flipped)) % 2 = 0 then TwoParity.Even
  else TwoParity.Odd

/-! ### Permutations (`src/random_helpers/permutations.rs`)

The source keeps `Permutation(Vec<usize>)` private and only ever constructs
genuine permutations of `{0, …, n-1}` (`from_len`, a shuffle of `0..len`, a
`compose` of two permutations, a swap of two entries), so the image array is
modelled by `Equiv.Perm (Fin n)`; `self.0[j]` is `f j`. -/

/-- Embeds the body of the `while !seen[j]` loop inside `Permutation::parity`:
starting from index `j`, repeatedly mark `seen[j] = true` and step `j = p[j]`
until hitting a marked index, returning the updated `seen` set and the number
of marks made.  The Rust loop needs no fuel (each pass marks a fresh index);
the model takes fuel and the proofs show `n + 1` always suffices. -/
def cycle_walk {n : Nat} (f : Equiv.Perm (Fin n)) :
    Nat → Finset (Fin n) → Fin n → Finset (Fin n) × Nat
  | 0, seen, _ => (seen, 0)
  | fuel + 1, seen, j =>
    if j ∈ seen then (seen, 0)
    else
      let r := cycle_walk f fuel (insert j seen) (f j)
      (r.1, r.2 + 1)

/-- Embeds the outer `for i in 0..self.len()` loop of `Permutation::parity`:
skip seen indices, otherwise walk the cycle through `i` (starting at `p[i]`
with `cycle_length = 1`, so the final `cycle_length` is the walk count plus
one) and toggle `running_odd` when `cycle_length` is odd. -/
def parity_go {n : Nat} (f : Equiv.Perm (Fin n)) :
    List (Fin n) → Finset (Fin n) → Bool → Bool
  | [], _, acc => acc
  | i :: rest, seen, acc =>
    if i ∈ seen then parity_go f rest seen acc
    else
      let r := cycle_walk f (n + 1) seen (f i)
      let cycle_length := r.2 + 1
      parity_go f rest r.1 (if cycle_length % 2 = 1 then !acc else acc)

/-- Embeds `Permutation::parity`. -/
def Permutation.parity {n : Nat} (f : Equiv.Perm (Fin n)) : TwoParity :=
  if parity_go f (List.finRange n) ∅ false then TwoParity.Odd else TwoParity.Even

/-- Embeds `compose` from `src/random_helpers/permutations.rs`:
`compose(a, b) = |i| a(b(i))`, which is `a * b` on `Equiv.Perm`. -/
def Permutation.compose {n : Nat} (a b : Equiv.Perm (Fin n)) : Equiv.Perm (Fin n) :=
  a * b

/-- Embeds the `swap` permutation built inside `with_parity`: `from_len(len)`
followed by `.0.swap(0, 1)`, i.e. the transposition of indices 0 and 1. -/
def Permutation.swap01 (n : Nat) (h2 : 2 ≤ n) : Equiv.Perm (Fin n) :=
  Equiv.swap ⟨0, by omega⟩ ⟨1, by omega⟩

/-- Embeds `with_parity` from `src/random_helpers/permutations.rs`.  The
shuffled draw `out` is modelled by the explicit argument `draw`. -/
def with_parity {n : Nat} (h2 : 2 ≤ n) (draw : Equiv.Perm (Fin n)) (desired : TwoParity) :
    Equiv.Perm (Fin n) :=
  if desired ≠ Permutation.parity draw then
    Permutation.compose (Permutation.swap01 n h2) draw
  else draw

/-- The cycle of `i` under `f`: all points on the same cycle of the
decomposition (its orbit).  Used to state what the cycle decomposition is. -/
def orb {n : Nat} (f : Equiv.Perm (Fin n)) (i : Fin n) : Finset (Fin n) :=
  Finset.univ.filter (fun j => f.SameCycle i j)

/-- Being the canonical (minimal) representative of one cycle of the
decomposition of `f`. -/
def is_orb_rep {n : Nat} (f : Equiv.Perm (Fin n)) (i : Fin n) : Prop :=
  ∀ j ∈ orb f i, i ≤ j

instance {n : Nat} (f : Equiv.Perm (Fin n)) (i : Fin n) : Decidable (is_orb_rep f i) := by
  unfold is_orb_rep; infer_instance

/-- The number of even-length cycles of the decomposition of `f` whose
representative lies in `A` (each cycle is counted via its minimal element). -/
def even_orb_count {n : Nat} (f : Equiv.Perm (Fin n)) (A : Finset (Fin n)) : Nat :=
  (A.filter (fun i => is_orb_rep f i ∧ (orb f i).card % 2 = 0)).card

/-- The number of even-length cycles in the cycle decomposition of `f`,
stated via Mathlib's `cycleType` (the multiset of cycle lengths of the
decomposition; fixed points have odd cycle length 1 so their absence from
`cycleType` does not affect the count). -/
def even_cycle_count {n : Nat} (f : Equiv.Perm (Fin n)) : Nat :=
  Multiset.card (f.cycleType.filter (fun k => k % 2 = 0))

/-! ### The IDA* solver (`src/idasearch.rs`) -/

/-- Embeds the error enum `SolveError { OutOfGas { max_fuel } }`. -/
inductive SolveError
  | OutOfGas (max_fuel : Nat)
deriving DecidableEq, Repr

/-- Embeds the `Solvable` trait: solved check, move enumeration, the
redundancy-pruning predicate, move application and the fuel ceiling. -/
structure Solvable (S M : Type) where
  is_solved : S → Bool
  available_moves : S → List M
  is_redundant : M → M → Bool
  apply : S → M → S
  max_fuel : Nat

/-- Embeds `no_heuristic`. -/
def no_heuristic {S : Type} : S → Nat := fun _ => 0

/-- The redundancy test as performed in `dfs`:
`last_move.is_some() && S::is_redundant(last_move.unwrap(), m)`. -/
def redundant_after {S M : Type} (P : Solvable S M) (lm : Option M) (m : M) : Bool :=
  match lm with
  | none => false
  | some l => P.is_redundant l m

/-- Embeds the `for m in state.available_moves()` loop of `dfs` at remaining
fuel `f + 1`: skip redundant moves, skip moves whose
`heuristic(next) + 1` exceeds the remaining fuel, otherwise recurse (via
`rec`, which the caller instantiates with `dfs` at fuel `f`) and prepend the
move on success.  The returned list plays the role of `moves_so_far` beyond
the current prefix. -/
def dfs_go {S M : Type} (P : Solvable S M) (h : S → Nat) (f : Nat)
    (rec : S → Option M → Option (List M)) (st : S) (lm : Option M) :
    List M → Option (List M)
  | [] => none
  | m :: ms =>
    if redundant_after P lm m then dfs_go P h f rec st lm ms
    else
      let next := P.apply st m
      if h next + 1 > f + 1 then dfs_go P h f rec st lm ms
      else
        match rec next (some m) with
        | some path => some (m :: path)
        | none => dfs_go P h f rec st lm ms

/-- Embeds the recursive `dfs` of `solve`.  At fuel 0 an unsolved state
returns `NotFound` directly: the Rust loop body skips every move because
`heuristic(next) + 1 ≥ 1 > 0 = rem_fuel`. -/
def dfs {S M : Type} (P : Solvable S M) (h : S → Nat) :
    Nat → S → Option M → Option (List M)
  | 0, st, _ => if P.is_solved st then some [] else none
  | f + 1, st, lm =>
    if P.is_solved st then some []
    else dfs_go P h f (dfs P h f) st lm (P.available_moves st)

/-- Embeds the outer `for fuel in 0..=max_fuel` loop of `solve`; `r` is the
number of fuel values still to try. -/
def solve_iter {S M : Type} (P : Solvable S M) (h : S → Nat) (st : S) :
    Nat → Nat → Option (List M)
  | 0, _ => none
  | r + 1, fuel =>
    match dfs P h fuel st none with
    | some p => some p
    | none => solve_iter P h st r (fuel + 1)

/-- Embeds `solve` from `src/idasearch.rs`. -/
def solve {S M : Type} (P : Solvable S M) (h : S → Nat) (st : S) :
    Except SolveError (List M) :=
  match solve_iter P h st (P.max_fuel + 1) 0 with
  | some p => Except.ok p
  | none => Except.error (SolveError.OutOfGas P.max_fuel)

/-- Runs a move sequence from a state, requiring each move to be available
where it is applied (the `Solvable` contract only defines `apply` on available
moves); `none` when some move is not available. -/
def run_path {S M : Type} [DecidableEq M] (P : Solvable S M) : S → List M → Option S
  | s, [] => some s
  | s, m :: ms =>
    if m ∈ P.available_moves s then run_path P (P.apply s m) ms else none

/-- Plain left-to-right application of a move sequence (used for the
scramble round trip, where the reversed moves are applied unconditionally). -/
def apply_seq {S M : Type} (P : Solvable S M) (s : S) (p : List M) : S :=
  p.foldl P.apply s

/-- The move sequence `p` takes `s` to a solved state (each move available
where applied). -/
def SolvesIn {S M : Type} [DecidableEq M] (P : Solvable S M) (s : S) (p : List M) : Prop :=
  ∃ t, run_path P s p = some t ∧ P.is_solved t = true

instance {S M : Type} [DecidableEq S] [DecidableEq M] [Fintype S] (P : Solvable S M)
    (s : S) (p : List M) : Decidable (SolvesIn P s p) := by
  unfold SolvesIn; infer_instance

/-- Admissibility of a heuristic, as documented on the `Heuristic` trait: the
estimate never exceeds the length of any solving sequence (hence never exceeds
the true remaining distance; unsolvable states are unconstrained). -/
def Admissible {S M : Type} [DecidableEq M] (P : Solvable S M) (h : S → Nat) : Prop :=
  ∀ t p, SolvesIn P t p → h t ≤ p.length

/-- The move sequence contains no move that is redundant after its
predecessor (with `lm` the move before the first one, as in `dfs`). -/
def red_ok {S M : Type} (P : Solvable S M) : Option M → List M → Bool
  | _, [] => true
  | lm, m :: ms => !redundant_after P lm m && red_ok P (some m) ms

/-- The conservativeness contract documented on `Solvable::is_redundant`
(pruning must not reject moves that are not actually redundant): whenever a
state is solvable, it has a redundancy-free solving sequence that is no
longer.  The default `is_redundant` (constantly `false`) satisfies this. -/
def RedundancySafe {S M : Type} [DecidableEq M] (P : Solvable S M) : Prop :=
  ∀ s p, SolvesIn P s p → ∃ q, SolvesIn P s q ∧ q.length ≤ p.length ∧ red_ok P none q = true

/-- The same puzzle with redundancy pruning disabled (`is_redundant` treated
as always-false), as in the redundancy-pruning-safety property. -/
def without_pruning {S M : Type} (P : Solvable S M) : Solvable S M :=
  { P with is_redundant := fun _ _ => false }

/-! ### The scramble generator (`src/scrambles.rs`) -/

/-- Embeds `random_scramble`.  The RNG draw `State::random_state(rng)` is
modelled by the explicit state `s`; `rev` models `Move::reverse` from the
`CanReverse` bound.  The solve path is reversed and each move replaced by its
reverse. -/
def random_scramble {S M : Type} (P : Solvable S M) (rev : M → M) (h : S → Nat) (s : S) :
    Except SolveError (List M) :=
  match solve P h s with
  | Except.ok solution => Except.ok ((solution.reverse).map rev)
  | Except.error e => Except.error e

/-! ### The breadth-first enumerator (`src/cubesearch.rs`) -/

/-- Embeds the `State` trait: neighbor generation, start state, the
configuration-counting filter and the unique-key projection. -/
structure StateC (S K : Type) where
  neighbors : S → List S
  start : S
  should_count_as_config : S → Bool
  uniq_key : S → K

/-- Embeds one pass of the `for state in to_process.iter()` loop shared by
`enumerate_state_space_started` and `bounded_cache`: walk the frontier in
order, skip states whose key is already seen, insert the keys of the others,
and return (in order) the newly seen states together with the updated seen
set.  Neighbor emission and per-state recording are expressed over the
returned list of new states. -/
def bfs_stage {S K : Type} [DecidableEq K] (C : StateC S K) :
    List S → Finset K → List S × Finset K
  | [], seen => ([], seen)
  | s :: rest, seen =>
    if C.uniq_key s ∈ seen then bfs_stage C rest seen
    else
      let r := bfs_stage C rest (insert (C.uniq_key s) seen)
      (s :: r.1, r.2)

/-- The `next_stage` vector built by the `recv` closure: the neighbors of all
newly seen states, in processing order. -/
def next_frontier {S K : Type} (C : StateC S K) (new : List S) : List S :=
  new.foldr (fun s acc => C.neighbors s ++ acc) []

/-- Embeds the `loop` of `enumerate_state_space_started`: process the current
frontier, count the newly seen states that `should_count_as_config`, stop when
that count is zero, otherwise record `(next_distance, count)` and continue on
the emitted neighbors.  The Rust loop is unbounded; the model takes fuel and
the proofs show `Fintype.card S + 1` suffices (`none` means fuel ran out). -/
def enumerate_go {S K : Type} [DecidableEq K] (C : StateC S K) :
    Nat → List S → Finset K → Nat → List (Nat × Nat) → Option (List (Nat × Nat))
  | 0, _, _, _, _ => none
  | fuel + 1, frontier, seen, next_distance, counts =>
    let st := bfs_stage C frontier seen
    let cnt := st.1.countP C.should_count_as_config
    if cnt = 0 then some counts
    else
      enumerate_go C fuel (next_frontier C st.1) st.2 (next_distance + 1)
        (counts ++ [(next_distance, cnt)])

/-- Embeds `enumerate_state_space_started` (the returned histogram; elapsed
wall time is not modelled).  The counts map is an association list with keys
inserted in increasing order. -/
def enumerate_state_space_started {S K : Type} [DecidableEq K] (C : StateC S K)
    (starts : List S) (fuel : Nat) : Option (List (Nat × Nat)) :=
  enumerate_go C fuel starts ∅ 0 []

/-! ### The bounded heuristic cache (`src/idasearch/heuristic_helpers.rs`) -/

/-- Embeds `BoundedStateCache` (the `HashMap` is an association list whose
keys, as proved below, are distinct). -/
structure BoundedStateCache (K : Type) where
  stored : List (K × Nat)
  fallback_depth : Nat

/-- First-match association-list lookup, modelling `HashMap::get`. -/
def lookup_first {K : Type} [DecidableEq K] : List (K × Nat) → K → Option Nat
  | [], _ => none
  | (k, v) :: rest, key => if k = key then some v else lookup_first rest key

/-- Embeds `impl Heuristic for BoundedStateCache`:
`stored.get(uniq_key(t)).unwrap_or(fallback_depth)`. -/
def BoundedStateCache.estimated_remaining_cost {S K : Type} [DecidableEq K]
    (c : BoundedStateCache K) (C : StateC S K) (t : S) : Nat :=
  (lookup_first c.stored (C.uniq_key t)).getD c.fallback_depth

/-- Embeds the `for depth in 0..=max_depth` loop of `bounded_cache`: process
the frontier, record `(uniq_key, depth)` for every newly seen state, and stop
early when the next frontier is empty; `r` is the number of depth values still
to process. -/
def bounded_cache_go {S K : Type} [DecidableEq K] (C : StateC S K) :
    Nat → Nat → List S → Finset K → List (K × Nat) → List (K × Nat)
  | 0, _, _, _, out => out
  | r + 1, depth, frontier, seen, out =>
    let st := bfs_stage C frontier seen
    let out2 := out ++ st.1.map (fun s => (C.uniq_key s, depth))
    let next := next_frontier C st.1
    if next.isEmpty then out2
    else bounded_cache_go C r (depth + 1) next st.2 out2

/-- Embeds `bounded_cache`. -/
def bounded_cache {S K : Type} [DecidableEq K] (C : StateC S K) (max_depth : Nat) :
    BoundedStateCache K :=
  { stored := bounded_cache_go C (max_depth + 1) 0 [C.start] ∅ []
    fallback_depth := max_depth + 1 }

/-! ### Ground truth for the breadth-first algorithms

`reach_set starts d` is the set of states reachable from `starts` by exactly
`d` neighbor steps; the BFS distance of a state is the least such `d`. -/

/-- States reachable in exactly `d` neighbor steps from `starts`. -/
def reach_set {S K : Type} [DecidableEq S] (C : StateC S K) (starts : List S) :
    Nat → Finset S
  | 0 => starts.toFinset
  | d + 1 => (reach_set C starts d).biUnion (fun s => (C.neighbors s).toFinset)

/-- The BFS distance of `s` from `starts` is exactly `d`. -/
def IsBfsDist {S K : Type} [DecidableEq S] (C : StateC S K) (starts : List S)
    (s : S) (d : Nat) : Prop :=
  s ∈ reach_set C starts d ∧ ∀ e < d, s ∉ reach_set C starts e

instance {S K : Type} [DecidableEq S] (C : StateC S K) (starts : List S)
    (s : S) (d : Nat) : Decidable (IsBfsDist C starts s d) := by
  unfold IsBfsDist; infer_instance

/-- The number of distinct states at BFS distance exactly `d` from `starts`
that count as configurations (distinct-by-`uniq_key` coincides with distinct
states under the injectivity hypothesis used throughout). -/
def config_count {S K : Type} [DecidableEq S] [Fintype S] (C : StateC S K)
    (starts : List S) (d : Nat) : Nat :=
  (Finset.univ.filter
    (fun s => IsBfsDist C starts s d ∧ C.should_count_as_config s = true)).card

/-- The frontier list and seen set of the level-by-level BFS before stage
`d`: stage `d` processes `(bfs_frontier C starts d).1` with seen set
`(bfs_frontier C starts d).2`. -/
def bfs_frontier {S K : Type} [DecidableEq K] (C : StateC S K) (starts : List S) :
    Nat → List S × Finset K
  | 0 => (starts, ∅)
  | d + 1 =>
    let st := bfs_stage C (bfs_frontier C starts d).1 (bfs_frontier C starts d).2
    (next_frontier C st.1, st.2)

/-- The states first seen at stage `d` of the BFS. -/
def bfs_new {S K : Type} [DecidableEq K] (C : StateC S K) (starts : List S) (d : Nat) :
    List S :=
  (bfs_stage C (bfs_frontier C starts d).1 (bfs_frontier C starts d).2).1

/-! ### Concrete instances used as witnesses

A three-position cyclic coordinate puzzle: states `Fin 3`, solved state `0`,
two moves (step forward / step back), no redundancy pruning, fuel ceiling 2.
This is the "two-move, 3-position coordinate" scenario of the spec. -/

/-- The three-position cyclic puzzle as a `Solvable`. -/
def cyc3 : Solvable (Fin 3) Bool :=
  { is_solved := fun s => decide (s = 0)
    available_moves := fun _ => [true, false]
    is_redundant := fun _ _ => false
    apply := fun s m => if m then s + 1 else s - 1
    max_fuel := 2 }

/-- The same puzzle with fuel ceiling 0, for the out-of-gas scenario. -/
def cyc3_fuel0 : Solvable (Fin 3) Bool :=
  { cyc3 with max_fuel := 0 }

/-- The three-position cyclic puzzle as a `State` (for enumeration), with the
identity unique key, mirroring the blanket `impl State for SimpleStartState`. -/
def cyc3_state : StateC (Fin 3) (Fin 3) :=
  { neighbors := fun s => [s + 1, s - 1]
    start := 0
    should_count_as_config := fun _ => true
    uniq_key := fun s => s }

/-! ## Proof development -/

section SolverLemmas

variable {S M : Type} [DecidableEq M]

theorem SolvesIn_nil (P : Solvable S M) (s : S) :
    SolvesIn P s [] ↔ P.is_solved s = true := by
  constructor
  · rintro ⟨t, ht, hsolved⟩
    simp only [run_path, Option.some.injEq] at ht
    exact ht ▸ hsolved
  · intro hs
    exact ⟨s, rfl, hs⟩

theorem SolvesIn_cons (P : Solvable S M) (s : S) (m : M) (p : List M) :
    SolvesIn P s (m :: p) ↔ m ∈ P.available_moves s ∧ SolvesIn P (P.apply s m) p := by
  constructor
  · rintro ⟨t, ht, hsolved⟩
    simp only [run_path] at ht
    by_cases hm : m ∈ P.available_moves s
    · rw [if_pos hm] at ht
      exact ⟨hm, t, ht, hsolved⟩
    · rw [if_neg hm] at ht
      cases ht
  · rintro ⟨hm, t, ht, hsolved⟩
    refine ⟨t, ?_, hsolved⟩
    simp only [run_path, if_pos hm]
    exact ht

theorem dfs_go_sound (P : Solvable S M) (h : S → Nat) (f : Nat)
    (rec : S → Option M → Option (List M)) (st : S) (lm : Option M)
    (hrec : ∀ s' lm' p, rec s' lm' = some p → SolvesIn P s' p ∧ p.length ≤ f) :
    ∀ (ls : List M) (p : List M), (∀ m ∈ ls, m ∈ P.available_moves st) →
      dfs_go P h f rec st lm ls = some p → SolvesIn P st p ∧ p.length ≤ f + 1 := by
  intro ls
  induction ls with
  | nil => intro p _ hgo; simp [dfs_go] at hgo
  | cons m ms ih =>
    intro p hsub hgo
    have hsub' : ∀ x ∈ ms, x ∈ P.available_moves st :=
      fun x hx => hsub x (List.mem_cons_of_mem _ hx)
    simp only [dfs_go] at hgo
    by_cases hr : redundant_after P lm m
    · rw [if_pos hr] at hgo
      exact ih p hsub' hgo
    · rw [if_neg hr] at hgo
      by_cases hp : h (P.apply st m) + 1 > f + 1
      · rw [if_pos hp] at hgo
        exact ih p hsub' hgo
      · rw [if_neg hp] at hgo
        cases hrc : rec (P.apply st m) (some m) with
        | none =>
          rw [hrc] at hgo
          exact ih p hsub' hgo
        | some path =>
          rw [hrc] at hgo
          simp only [Option.some.injEq] at hgo
          obtain ⟨hsolve, hlen⟩ := hrec _ _ _ hrc
          subst hgo
          refine ⟨(SolvesIn_cons P st m path).mpr ⟨hsub m (List.mem_cons_self m ms), hsolve⟩, ?_⟩
          simp only [List.length_cons]
          omega

theorem dfs_sound (P : Solvable S M) (h : S → Nat) :
    ∀ (fuel : Nat) (st : S) (lm : Option M) (p : List M),
      dfs P h fuel st lm = some p → SolvesIn P st p ∧ p.length ≤ fuel := by
  intro fuel
  induction fuel with
  | zero =>
    intro st lm p hd
    simp only [dfs] at hd
    by_cases hs : P.is_solved st = true
    · rw [if_pos hs] at hd
      simp only [Option.some.injEq] at hd
      subst hd
      exact ⟨(SolvesIn_nil P st).mpr hs, by simp⟩
    · rw [if_neg hs] at hd
      cases hd
  | succ f ih =>
    intro st lm p hd
    simp only [dfs] at hd
    by_cases hs : P.is_solved st = true
    · rw [if_pos hs] at hd
      simp only [Option.some.injEq] at hd
      subst hd
      exact ⟨(SolvesIn_nil P st).mpr hs, by simp⟩
    · rw [if_neg hs] at hd
      exact dfs_go_sound P h f (dfs P h f) st lm (fun s' lm' p' => ih s' lm' p')
        (P.available_moves st) p (fun m hm => hm) hd

theorem dfs_go_complete (P : Solvable S M) (h : S → Nat) (f : Nat)
    (rec : S → Option M → Option (List M)) (st : S) (lm : Option M) (m : M)
    (hr : redundant_after P lm m = false)
    (hpr : ¬h (P.apply st m) + 1 > f + 1)
    (hrec : (rec (P.apply st m) (some m)).isSome) :
    ∀ ls : List M, m ∈ ls → (dfs_go P h f rec st lm ls).isSome := by
  intro ls
  induction ls with
  | nil => intro hm; cases hm
  | cons a ms ih =>
    intro hm
    simp only [dfs_go]
    by_cases hra : redundant_after P lm a
    · rw [if_pos hra]
      rcases List.mem_cons.mp hm with heq | hmem
      · rw [← heq] at hra
        rw [hr] at hra
        cases hra
      · exact ih hmem
    · rw [if_neg hra]
      by_cases hpa : h (P.apply st a) + 1 > f + 1
      · rw [if_pos hpa]
        rcases List.mem_cons.mp hm with heq | hmem
        · subst heq; exact absurd hpa hpr
        · exact ih hmem
      · rw [if_neg hpa]
        cases hrc : rec (P.apply st a) (some a) with
        | some path => simp
        | none =>
          rcases List.mem_cons.mp hm with heq | hmem
          · subst heq
            rw [hrc] at hrec
            simp at hrec
          · exact ih hmem

theorem dfs_complete (P : Solvable S M) (h : S → Nat) (hadm : Admissible P h) :
    ∀ (p : List M) (st : S) (lm : Option M) (fuel : Nat),
      SolvesIn P st p → red_ok P lm p = true → p.length ≤ fuel →
      (dfs P h fuel st lm).isSome := by
  intro p
  induction p with
  | nil =>
    intro st lm fuel hs _ _
    have hsolved := (SolvesIn_nil P st).mp hs
    cases fuel <;> simp [dfs, hsolved]
  | cons m ms ih =>
    intro st lm fuel hs hro hlen
    obtain ⟨hm, hnext⟩ := (SolvesIn_cons P st m ms).mp hs
    by_cases hsolved : P.is_solved st = true
    · cases fuel <;> simp [dfs, hsolved]
    · cases fuel with
      | zero => simp at hlen
      | succ f =>
        simp only [dfs, if_neg hsolved]
        simp only [red_ok, Bool.and_eq_true, Bool.not_eq_true'] at hro
        have hml : ms.length ≤ f := by
          simp only [List.length_cons] at hlen
          omega
        have hprune : ¬h (P.apply st m) + 1 > f + 1 := by
          have := hadm _ _ hnext
          omega
        have hrec : (dfs P h f (P.apply st m) (some m)).isSome :=
          ih _ _ _ hnext hro.2 hml
        exact dfs_go_complete P h f (dfs P h f) st lm m hro.1 hprune hrec
          (P.available_moves st) hm

theorem solve_iter_eq_none (P : Solvable S M) (h : S → Nat) (st : S) :
    ∀ (r fuel : Nat), solve_iter P h st r fuel = none ↔
      ∀ k, fuel ≤ k → k < fuel + r → dfs P h k st none = none := by
  intro r
  induction r with
  | zero =>
    intro fuel
    constructor
    · intro _ k h1 h2; omega
    · intro _; rfl
  | succ r ih =>
    intro fuel
    simp only [solve_iter]
    cases hd : dfs P h fuel st none with
    | some p =>
      constructor
      · intro hc; cases hc
      · intro hall
        have := hall fuel (le_refl _) (by omega)
        rw [this] at hd
        cases hd
    | none =>
      rw [ih (fuel + 1)]
      constructor
      · intro hall k h1 h2
        rcases Nat.eq_or_lt_of_le h1 with heq | hlt
        · rw [← heq]; exact hd
        · exact hall k hlt (by omega)
      · intro hall k h1 h2
        exact hall k (by omega) (by omega)

theorem solve_iter_some_spec (P : Solvable S M) (h : S → Nat) (st : S) :
    ∀ (r fuel : Nat) (p : List M), solve_iter P h st r fuel = some p →
      ∃ k, fuel ≤ k ∧ k < fuel + r ∧ dfs P h k st none = some p ∧
        ∀ j, fuel ≤ j → j < k → dfs P h j st none = none := by
  intro r
  induction r with
  | zero => intro fuel p hc; cases hc
  | succ r ih =>
    intro fuel p hsi
    simp only [solve_iter] at hsi
    cases hd : dfs P h fuel st none with
    | some q =>
      rw [hd] at hsi
      simp only [Option.some.injEq] at hsi
      subst hsi
      exact ⟨fuel, le_refl _, by omega, hd, fun j h1 h2 => by omega⟩
    | none =>
      rw [hd] at hsi
      obtain ⟨k, hk1, hk2, hk3, hk4⟩ := ih (fuel + 1) p hsi
      refine ⟨k, by omega, by omega, hk3, ?_⟩
      intro j h1 h2
      rcases Nat.eq_or_lt_of_le h1 with heq | hlt
      · rw [← heq]; exact hd
      · exact hk4 j hlt h2

/-- Core success lemma for `solve`: with an admissible heuristic and a
conservative redundancy predicate, if a solution within the fuel ceiling
exists, `solve` returns a shortest solution. -/
theorem solve_ok_of_ex (P : Solvable S M) (h : S → Nat) (s : S)
    (hadm : Admissible P h) (hred : RedundancySafe P)
    (hex : ∃ p, SolvesIn P s p ∧ p.length ≤ P.max_fuel) :
    ∃ q, solve P h s = Except.ok q ∧ SolvesIn P s q ∧
      ∀ p, SolvesIn P s p → q.length ≤ p.length := by
  classical
  obtain ⟨p0, hp0, hp0le⟩ := hex
  have hexn : ∃ n, ∃ p, SolvesIn P s p ∧ p.length = n := ⟨p0.length, p0, hp0, rfl⟩
  obtain ⟨pmin, hpmin, hpminlen⟩ := Nat.find_spec hexn
  have hmin : ∀ q, SolvesIn P s q → Nat.find hexn ≤ q.length :=
    fun q hq => Nat.find_min' hexn ⟨q, hq, rfl⟩
  obtain ⟨q0, hq0, hq0len, hq0red⟩ := hred s pmin hpmin
  have hq0len' : q0.length = Nat.find hexn :=
    le_antisymm (hpminlen ▸ hq0len) (hmin q0 hq0)
  have hdfs : (dfs P h (Nat.find hexn) s none).isSome :=
    dfs_complete P h hadm q0 s none (Nat.find hexn) hq0 hq0red (le_of_eq hq0len')
  have hfind_le : Nat.find hexn ≤ P.max_fuel := le_trans (hmin p0 hp0) hp0le
  cases hsi : solve_iter P h s (P.max_fuel + 1) 0 with
  | none =>
    exfalso
    have := (solve_iter_eq_none P h s (P.max_fuel + 1) 0).mp hsi (Nat.find hexn)
      (Nat.zero_le _) (by omega)
    rw [this] at hdfs
    cases hdfs
  | some q =>
    obtain ⟨k, _, _, hdk, hbelow⟩ := solve_iter_some_spec P h s (P.max_fuel + 1) 0 q hsi
    obtain ⟨hsq, hql⟩ := dfs_sound P h k s none q hdk
    have hkn : k ≤ Nat.find hexn := by
      by_contra hgt
      have := hbelow (Nat.find hexn) (Nat.zero_le _) (by omega)
      rw [this] at hdfs
      cases hdfs
    refine ⟨q, ?_, hsq, ?_⟩
    · simp [solve, hsi]
    · intro p hp
      have := hmin p hp
      omega

/-- Core failure lemma for `solve`: if no solution fits within the fuel
ceiling, `solve` reports `OutOfGas` (no hypotheses on the heuristic or the
redundancy predicate are needed for this direction). -/
theorem solve_err_of_not_ex (P : Solvable S M) (h : S → Nat) (s : S)
    (hnex : ¬∃ p, SolvesIn P s p ∧ p.length ≤ P.max_fuel) :
    solve P h s = Except.error (SolveError.OutOfGas P.max_fuel) := by
  have hnone : solve_iter P h s (P.max_fuel + 1) 0 = none := by
    rw [solve_iter_eq_none]
    intro k _ hk
    cases hd : dfs P h k s none with
    | none => rfl
    | some p =>
      exfalso
      obtain ⟨hsp, hpl⟩ := dfs_sound P h k s none p hd
      exact hnex ⟨p, hsp, by omega⟩
  simp [solve, hnone]

/-- With a never-redundant predicate, every sequence is redundancy-free. -/
theorem red_ok_of_never (P : Solvable S M) (hnever : ∀ a b, P.is_redundant a b = false) :
    ∀ (p : List M) (lm : Option M), red_ok P lm p = true := by
  intro p
  induction p with
  | nil => intro lm; rfl
  | cons m ms ih =>
    intro lm
    simp only [red_ok, Bool.and_eq_true, Bool.not_eq_true']
    refine ⟨?_, ih (some m)⟩
    cases lm with
    | none => rfl
    | some l => exact hnever l m

theorem redundancy_safe_of_never (P : Solvable S M)
    (hnever : ∀ a b, P.is_redundant a b = false) : RedundancySafe P :=
  fun s p hp => ⟨p, hp, le_refl _, red_ok_of_never P hnever p none⟩

theorem without_pruning_moves (P : Solvable S M) :
    (without_pruning P).available_moves = P.available_moves := rfl

theorem without_pruning_apply (P : Solvable S M) :
    (without_pruning P).apply = P.apply := rfl

theorem run_path_without_pruning (P : Solvable S M) :
    ∀ (p : List M) (s : S), run_path (without_pruning P) s p = run_path P s p := by
  intro p
  induction p with
  | nil => intro s; rfl
  | cons m ms ih =>
    intro s
    simp only [run_path, without_pruning_moves, without_pruning_apply]
    split
    · exact ih _
    · rfl

theorem SolvesIn_without_pruning (P : Solvable S M) (s : S) (p : List M) :
    SolvesIn (without_pruning P) s p ↔ SolvesIn P s p := by
  unfold SolvesIn
  rw [run_path_without_pruning]
  rfl

end SolverLemmas

section ScrambleLemmas

variable {S M : Type} [DecidableEq M]

theorem apply_seq_append (P : Solvable S M) (s : S) (a b : List M) :
    apply_seq P s (a ++ b) = apply_seq P (apply_seq P s a) b :=
  List.foldl_append _ _ _ _

theorem apply_seq_reverse_undo (P : Solvable S M) (rev : M → M)
    (hrev : ∀ t m, P.apply (P.apply t m) (rev m) = t) :
    ∀ (p : List M) (s : S), apply_seq P (apply_seq P s p) ((p.reverse).map rev) = s := by
  intro p
  induction p with
  | nil => intro s; rfl
  | cons m ms ih =>
    intro s
    simp only [List.reverse_cons, List.map_append, List.map_cons, List.map_nil]
    rw [apply_seq_append]
    have h1 : apply_seq P s (m :: ms) = apply_seq P (P.apply s m) ms := rfl
    rw [h1, ih (P.apply s m)]
    simp only [apply_seq, List.foldl_cons, List.foldl_nil]
    exact hrev s m

theorem run_path_eq_apply_seq (P : Solvable S M) :
    ∀ (p : List M) (s t : S), run_path P s p = some t → apply_seq P s p = t := by
  intro p
  induction p with
  | nil =>
    intro s t h
    simp only [run_path, Option.some.injEq] at h
    exact h
  | cons m ms ih =>
    intro s t h
    simp only [run_path] at h
    by_cases hm : m ∈ P.available_moves s
    · rw [if_pos hm] at h
      exact ih _ _ h
    · rw [if_neg hm] at h
      cases h

end ScrambleLemmas

/-! ## Claim theorems for the moves, flips and scramble -/

/-- C10: `reverse()` is an involution on both concrete move-amount types,
with `One` and `Rev` swapped, `Two` self-inverse, and `Cw` and `Ccw`
swapped. -/
theorem claim_reverse_involution :
    (∀ m : CubeMoveAmt, m.reverse.reverse = m) ∧
    (∀ m : CornerTwistAmt, m.reverse.reverse = m) ∧
    CubeMoveAmt.One.reverse = CubeMoveAmt.Rev ∧
    CubeMoveAmt.Rev.reverse = CubeMoveAmt.One ∧
    CubeMoveAmt.Two.reverse = CubeMoveAmt.Two ∧
    CornerTwistAmt.Cw.reverse = CornerTwistAmt.Ccw ∧
    CornerTwistAmt.Ccw.reverse = CornerTwistAmt.Cw :=
  ⟨fun m => by cases m <;> rfl, fun m => by cases m <;> rfl, rfl, rfl, rfl, rfl, rfl⟩

/-- C8 (amended to lengths at least 1, which the counterexample forces: at
`len = 0` the Rust function panics — explicitly for an `Odd` target, by
`usize` underflow in `(0..len - 1)` for an `Even` target): for every length
`n ≥ 1`, every target parity and every outcome of the random draws,
`flips_with_parity` returns a vector of exactly `n` entries whose count of
`Flipped` entries has the target parity. -/
theorem claim_flips_with_parity (draws : Nat → EdgeOrientation) (len : Nat)
    (desired : TwoParity) (hlen : 1 ≤ len) :
    ∃ v, flips_with_parity draws len desired = some v ∧ v.length = len ∧
      flip_count_parity v = desired := by
  have hne : ¬len = 0 := by omega
  simp only [flips_with_parity, if_neg hne]
  set out := (List.range (len - 1)).map draws with hout
  set cnt := out.countP (fun e => decide (e = EdgeOrientation.Flipped)) with hcnt
  have hlenout : out.length = len - 1 := by
    rw [hout]; simp
  by_cases hc : (if cnt % 2 = 0 then TwoParity.Even else TwoParity.Odd) = desired
  · rw [if_pos hc]
    refine ⟨out ++ [EdgeOrientation.Normal], rfl, ?_, ?_⟩
    · simp [hlenout]; omega
    · unfold flip_count_parity
      have : (out ++ [EdgeOrientation.Normal]).countP
          (fun e => decide (e = EdgeOrientation.Flipped)) = cnt := by
        rw [List.countP_append]
        simp [hcnt]
      rw [this]
      exact hc
  · rw [if_neg hc]
    refine ⟨out ++ [EdgeOrientation.Flipped], rfl, ?_, ?_⟩
    · simp [hlenout]; omega
    · unfold flip_count_parity
      have hstep : (out ++ [EdgeOrientation.Flipped]).countP
          (fun e => decide (e = EdgeOrientation.Flipped)) = cnt + 1 := by
        rw [List.countP_append]
        simp [hcnt]
      rw [hstep]
      by_cases hm : cnt % 2 = 0
      · rw [if_pos hm] at hc
        have hd : desired = TwoParity.Odd := by
          cases desired
          · exact absurd rfl hc
          · rfl
        rw [hd, if_neg (by omega)]
      · rw [if_neg hm] at hc
        have hd : desired = TwoParity.Even := by
          cases desired
          · rfl
          · exact absurd rfl hc
        rw [hd, if_pos (by omega)]

/-- C8 counterexample: at length 0 with an `Even` target the claim demands
the empty flip vector (0 flips, even), but the code panics (modelled as
`none`). -/
theorem claim_flips_with_parity_cex :
    flips_with_parity (fun _ => EdgeOrientation.Normal) 0 TwoParity.Even ≠ some [] := by
  decide

/-- C8 witness: at length 3 with an `Odd` target the amended claim applies. -/
theorem claim_flips_with_parity_witness :
    ∃ v, flips_with_parity (fun _ => EdgeOrientation.Normal) 3 TwoParity.Odd = some v ∧
      v.length = 3 ∧ flip_count_parity v = TwoParity.Odd :=
  claim_flips_with_parity (fun _ => EdgeOrientation.Normal) 3 TwoParity.Odd (by decide)

/-- C5: when the internal solve succeeds, `random_scramble` returns the
solver's path reversed with every move replaced by its reverse; and provided
each move's reverse exactly undoes it, applying the returned sequence from
the state the solve ended in (the solved state) reproduces the drawn
scrambled state. -/
theorem claim_scramble_round_trip {S M : Type} [DecidableEq M] (P : Solvable S M)
    (rev : M → M) (h : S → Nat) (s : S)
    (hrev : ∀ t m, P.apply (P.apply t m) (rev m) = t)
    (sol : List M) (hsol : solve P h s = Except.ok sol) :
    random_scramble P rev h s = Except.ok ((sol.reverse).map rev) ∧
      ∀ t, run_path P s sol = some t → apply_seq P t ((sol.reverse).map rev) = s := by
  constructor
  · simp [random_scramble, hsol]
  · intro t ht
    have := run_path_eq_apply_seq P sol s t ht
    rw [← this]
    exact apply_seq_reverse_undo P rev hrev sol s

/-- C5 witness: the three-position cyclic puzzle, scramble drawn as state 1;
the solver finds `[false]` (one step back), the scramble is `[true]`, and
applying it to the solved state 0 reproduces state 1. -/
theorem claim_scramble_round_trip_witness :
    (random_scramble cyc3 (fun m => !m) no_heuristic 1 =
      Except.ok (([false].reverse).map (fun m => !m))) ∧
    ∀ t, run_path cyc3 1 [false] = some t →
      apply_seq cyc3 t (([false].reverse).map (fun m => !m)) = 1 :=
  claim_scramble_round_trip cyc3 (fun m => !m) no_heuristic 1 (by decide) [false] (by rfl)

/-! ## Claim theorems for the IDA* solver -/

/-- C1: for every `Solvable` (with `is_redundant` meeting its documented
conservativeness contract, `RedundancySafe`) and every heuristic that never
overestimates (`Admissible`), if some move sequence of length at most
`max_fuel` takes `s` to a solved state then `solve` returns `Ok` with a path
that solves `s` and has the true minimal solution length. -/
theorem claim_idastar_optimal {S M : Type} [DecidableEq M] (P : Solvable S M)
    (h : S → Nat) (s : S) (hadm : Admissible P h) (hred : RedundancySafe P)
    (hex : ∃ p, SolvesIn P s p ∧ p.length ≤ P.max_fuel) :
    ∃ q, solve P h s = Except.ok q ∧ SolvesIn P s q ∧
      ∀ p, SolvesIn P s p → q.length ≤ p.length :=
  solve_ok_of_ex P h s hadm hred hex

/-- C1 witness: the three-position cyclic puzzle, scrambled state 1, no
heuristic; a 1-move solution exists within the fuel ceiling 2. -/
theorem claim_idastar_optimal_witness :
    ∃ q, solve cyc3 no_heuristic 1 = Except.ok q ∧ SolvesIn cyc3 1 q ∧
      ∀ p, SolvesIn cyc3 1 p → q.length ≤ p.length :=
  claim_idastar_optimal cyc3 no_heuristic 1 (fun _ p _ => Nat.zero_le p.length)
    (redundancy_safe_of_never cyc3 (fun _ _ => rfl)) ⟨[false], by decide, by decide⟩

/-- C3: under the same contract hypotheses as C1, `solve` returns
`Err(OutOfGas { max_fuel })` exactly when no move sequence of length at most
`max_fuel` solves `s`, and `OutOfGas max_fuel` is the only error it can
return (the outer loop never tries a budget above `max_fuel`). -/
theorem claim_out_of_gas {S M : Type} [DecidableEq M] (P : Solvable S M)
    (h : S → Nat) (s : S) (hadm : Admissible P h) (hred : RedundancySafe P) :
    (solve P h s = Except.error (SolveError.OutOfGas P.max_fuel) ↔
      ¬∃ p, SolvesIn P s p ∧ p.length ≤ P.max_fuel) ∧
    (∀ e, solve P h s = Except.error e → e = SolveError.OutOfGas P.max_fuel) := by
  constructor
  · constructor
    · intro herr hex
      obtain ⟨q, hq, _, _⟩ := solve_ok_of_ex P h s hadm hred hex
      rw [hq] at herr
      cases herr
    · exact solve_err_of_not_ex P h s
  · intro e he
    unfold solve at he
    cases hsi : solve_iter P h s (P.max_fuel + 1) 0 with
    | some p => rw [hsi] at he; cases he
    | none =>
      rw [hsi] at he
      injection he with he
      exact he.symm

/-- C3 witness: the three-position cyclic puzzle with `max_fuel = 0` at the
distance-1 state 1: the theorem applies, and `solve` does return
`OutOfGas { max_fuel: 0 }` there (the spec's concrete scenario). -/
theorem claim_out_of_gas_witness :
    ((solve cyc3_fuel0 no_heuristic 1 =
        Except.error (SolveError.OutOfGas cyc3_fuel0.max_fuel) ↔
      ¬∃ p, SolvesIn cyc3_fuel0 1 p ∧ p.length ≤ cyc3_fuel0.max_fuel) ∧
    (∀ e, solve cyc3_fuel0 no_heuristic 1 = Except.error e →
      e = SolveError.OutOfGas cyc3_fuel0.max_fuel)) ∧
    solve cyc3_fuel0 no_heuristic 1 = Except.error (SolveError.OutOfGas 0) :=
  ⟨claim_out_of_gas cyc3_fuel0 no_heuristic 1 (fun _ p _ => Nat.zero_le p.length)
      (redundancy_safe_of_never cyc3_fuel0 (fun _ _ => rfl)), rfl⟩

/-- C9: under the documented contract (admissible heuristic, conservative
`is_redundant`), replacing `is_redundant` by the constant-false predicate
never changes the length of the path `solve` returns, and never turns
success into failure or vice versa: the outcomes agree up to the returned
path length. -/
theorem claim_pruning_safe {S M : Type} [DecidableEq M] (P : Solvable S M)
    (h : S → Nat) (s : S) (hadm : Admissible P h) (hred : RedundancySafe P) :
    Except.map List.length (solve P h s) =
      Except.map List.length (solve (without_pruning P) h s) := by
  have hadm' : Admissible (without_pruning P) h := by
    intro t p hp
    exact hadm t p ((SolvesIn_without_pruning P t p).mp hp)
  have hred' : RedundancySafe (without_pruning P) :=
    redundancy_safe_of_never (without_pruning P) (fun _ _ => rfl)
  by_cases hex : ∃ p, SolvesIn P s p ∧ p.length ≤ P.max_fuel
  · obtain ⟨q, hq, hqs, hqmin⟩ := solve_ok_of_ex P h s hadm hred hex
    obtain ⟨p0, hp0, hp0l⟩ := hex
    have hex' : ∃ p, SolvesIn (without_pruning P) s p ∧
        p.length ≤ (without_pruning P).max_fuel :=
      ⟨p0, (SolvesIn_without_pruning P s p0).mpr hp0, hp0l⟩
    obtain ⟨q', hq', hqs', hqmin'⟩ := solve_ok_of_ex (without_pruning P) h s hadm' hred' hex'
    rw [hq, hq']
    have h1 : q.length ≤ q'.length := hqmin q' ((SolvesIn_without_pruning P s q').mp hqs')
    have h2 : q'.length ≤ q.length := hqmin' q ((SolvesIn_without_pruning P s q).mpr hqs)
    simp only [Except.map]
    rw [le_antisymm h1 h2]
  · have hex' : ¬∃ p, SolvesIn (without_pruning P) s p ∧
        p.length ≤ (without_pruning P).max_fuel := by
      intro ⟨p, hp, hl⟩
      exact hex ⟨p, (SolvesIn_without_pruning P s p).mp hp, hl⟩
    rw [solve_err_of_not_ex P h s hex, solve_err_of_not_ex (without_pruning P) h s hex']
    rfl

/-- C9 witness: the three-position cyclic puzzle at state 1 with no
heuristic. -/
theorem claim_pruning_safe_witness :
    Except.map List.length (solve cyc3 no_heuristic 1) =
      Except.map List.length (solve (without_pruning cyc3) no_heuristic 1) :=
  claim_pruning_safe cyc3 no_heuristic 1 (fun _ p _ => Nat.zero_le p.length)
    (redundancy_safe_of_never cyc3 (fun _ _ => rfl))

/-! ## Breadth-first search correctness -/

section BfsLemmas

variable {S K : Type} [DecidableEq S] [DecidableEq K]

theorem bfs_stage_mem (C : StateC S K) (hinj : Function.Injective C.uniq_key) :
    ∀ (l : List S) (seen : Finset K) (s : S),
      s ∈ (bfs_stage C l seen).1 ↔ s ∈ l ∧ C.uniq_key s ∉ seen := by
  intro l
  induction l with
  | nil => intro seen s; simp [bfs_stage]
  | cons s0 rest ih =>
    intro seen s
    simp only [bfs_stage]
    by_cases h0 : C.uniq_key s0 ∈ seen
    · rw [if_pos h0, ih]
      constructor
      · rintro ⟨hmem, hk⟩
        exact ⟨List.mem_cons_of_mem _ hmem, hk⟩
      · rintro ⟨hmem, hk⟩
        rcases List.mem_cons.mp hmem with heq | hmem'
        · subst heq; exact absurd h0 hk
        · exact ⟨hmem', hk⟩
    · rw [if_neg h0]
      simp only [List.mem_cons, ih]
      constructor
      · rintro (heq | ⟨hmem, hk⟩)
        · subst heq; exact ⟨Or.inl rfl, h0⟩
        · rw [Finset.mem_insert] at hk
          push_neg at hk
          exact ⟨Or.inr hmem, hk.2⟩
      · rintro ⟨heq | hmem, hk⟩
        · exact Or.inl heq
        · by_cases hkey : C.uniq_key s = C.uniq_key s0
          · exact Or.inl (hinj hkey)
          · refine Or.inr ⟨hmem, ?_⟩
            rw [Finset.mem_insert]
            push_neg
            exact ⟨hkey, hk⟩

theorem bfs_stage_seen_mem (C : StateC S K) :
    ∀ (l : List S) (seen : Finset K) (k : K),
      k ∈ (bfs_stage C l seen).2 ↔ k ∈ seen ∨ ∃ s ∈ l, C.uniq_key s = k := by
  intro l
  induction l with
  | nil => intro seen k; simp [bfs_stage]
  | cons s0 rest ih =>
    intro seen k
    simp only [bfs_stage]
    by_cases h0 : C.uniq_key s0 ∈ seen
    · rw [if_pos h0, ih]
      constructor
      · rintro (hk | ⟨s, hs, hsk⟩)
        · exact Or.inl hk
        · exact Or.inr ⟨s, List.mem_cons_of_mem _ hs, hsk⟩
      · rintro (hk | ⟨s, hs, hsk⟩)
        · exact Or.inl hk
        · rcases List.mem_cons.mp hs with heq | hs'
          · subst heq; exact Or.inl (hsk ▸ h0)
          · exact Or.inr ⟨s, hs', hsk⟩
    · rw [if_neg h0]
      show k ∈ (bfs_stage C rest (insert (C.uniq_key s0) seen)).2 ↔ _
      rw [ih]
      simp only [Finset.mem_insert, List.mem_cons]
      constructor
      · rintro ((heq | hk) | ⟨s, hs, hsk⟩)
        · exact Or.inr ⟨s0, Or.inl rfl, heq.symm⟩
        · exact Or.inl hk
        · exact Or.inr ⟨s, Or.inr hs, hsk⟩
      · rintro (hk | ⟨s, heq | hs, hsk⟩)
        · exact Or.inl (Or.inr hk)
        · subst heq; exact Or.inl (Or.inl hsk.symm)
        · exact Or.inr ⟨s, hs, hsk⟩

theorem bfs_stage_nodup (C : StateC S K) (hinj : Function.Injective C.uniq_key) :
    ∀ (l : List S) (seen : Finset K), (bfs_stage C l seen).1.Nodup := by
  intro l
  induction l with
  | nil => intro seen; simp [bfs_stage]
  | cons s0 rest ih =>
    intro seen
    simp only [bfs_stage]
    by_cases h0 : C.uniq_key s0 ∈ seen
    · rw [if_pos h0]; exact ih seen
    · rw [if_neg h0]
      refine List.Nodup.cons ?_ (ih _)
      intro hmem
      have := (bfs_stage_mem C hinj rest (insert (C.uniq_key s0) seen) s0).mp hmem
      exact this.2 (Finset.mem_insert_self _ _)

theorem next_frontier_mem (C : StateC S K) :
    ∀ (new : List S) (s : S),
      s ∈ next_frontier C new ↔ ∃ t ∈ new, s ∈ C.neighbors t := by
  intro new
  induction new with
  | nil => intro s; simp [next_frontier]
  | cons t0 rest ih =>
    intro s
    simp only [next_frontier, List.foldr_cons, List.mem_append, List.mem_cons]
    rw [show (List.foldr (fun s acc => C.neighbors s ++ acc) [] rest) =
      next_frontier C rest from rfl, ih]
    constructor
    · rintro (hs | ⟨t, ht, hts⟩)
      · exact ⟨t0, Or.inl rfl, hs⟩
      · exact ⟨t, Or.inr ht, hts⟩
    · rintro ⟨t, heq | ht, hts⟩
      · subst heq; exact Or.inl hts
      · exact Or.inr ⟨t, ht, hts⟩

theorem mem_reach_set_succ (C : StateC S K) (starts : List S) (s : S) (d : Nat) :
    s ∈ reach_set C starts (d + 1) ↔
      ∃ t ∈ reach_set C starts d, s ∈ C.neighbors t := by
  simp [reach_set, Finset.mem_biUnion, List.mem_toFinset]

theorem exists_isBfsDist_le (C : StateC S K) (starts : List S) :
    ∀ (d : Nat) (s : S), s ∈ reach_set C starts d →
      ∃ e, e ≤ d ∧ IsBfsDist C starts s e := by
  intro d
  induction d using Nat.strong_induction_on with
  | _ d ih =>
    intro s hs
    by_cases hbelow : ∃ e, e < d ∧ s ∈ reach_set C starts e
    · obtain ⟨e, he, hse⟩ := hbelow
      obtain ⟨e', he', hdist⟩ := ih e he s hse
      exact ⟨e', by omega, hdist⟩
    · push_neg at hbelow
      exact ⟨d, le_refl _, hs, fun e he => hbelow e he⟩

theorem isBfsDist_unique (C : StateC S K) (starts : List S) (s : S) (d d' : Nat)
    (h1 : IsBfsDist C starts s d) (h2 : IsBfsDist C starts s d') : d = d' := by
  rcases lt_trichotomy d d' with hlt | heq | hgt
  · exact absurd h1.1 (h2.2 d hlt)
  · exact heq
  · exact absurd h2.1 (h1.2 d' hgt)

/-- The first-seen states of stage `d` are exactly the states at BFS distance
`d`, given the three-part invariant at stage `d`. -/
theorem bfs_new_of_inv (C : StateC S K) (starts : List S)
    (hinj : Function.Injective C.uniq_key) (d : Nat)
    (h1 : ∀ s, s ∈ (bfs_frontier C starts d).1 → s ∈ reach_set C starts d)
    (h2 : ∀ s, IsBfsDist C starts s d → s ∈ (bfs_frontier C starts d).1)
    (h3 : ∀ k, k ∈ (bfs_frontier C starts d).2 ↔
      ∃ s, C.uniq_key s = k ∧ ∃ e, e < d ∧ IsBfsDist C starts s e) :
    ∀ s, s ∈ bfs_new C starts d ↔ IsBfsDist C starts s d := by
  intro s
  unfold bfs_new
  rw [bfs_stage_mem C hinj]
  constructor
  · rintro ⟨hf, hk⟩
    refine ⟨h1 s hf, ?_⟩
    intro e he hse
    apply hk
    rw [h3]
    obtain ⟨e', he', hdist⟩ := exists_isBfsDist_le C starts e s hse
    exact ⟨s, rfl, e', by omega, hdist⟩
  · intro hdist
    refine ⟨h2 s hdist, ?_⟩
    intro hk
    rw [h3] at hk
    obtain ⟨s', hs'k, e, he, hdist'⟩ := hk
    have : s' = s := hinj hs'k
    subst this
    exact hdist.2 e he hdist'.1

/-- The BFS invariant: at every stage `d`, the frontier contains exactly what
is reachable in `d` steps (all states at distance exactly `d` are present),
and the seen set holds exactly the keys of states at distance below `d`. -/
theorem bfs_inv (C : StateC S K) (starts : List S)
    (hinj : Function.Injective C.uniq_key) :
    ∀ d : Nat,
      (∀ s, s ∈ (bfs_frontier C starts d).1 → s ∈ reach_set C starts d) ∧
      (∀ s, IsBfsDist C starts s d → s ∈ (bfs_frontier C starts d).1) ∧
      (∀ k, k ∈ (bfs_frontier C starts d).2 ↔
        ∃ s, C.uniq_key s = k ∧ ∃ e, e < d ∧ IsBfsDist C starts s e) := by
  intro d
  induction d with
  | zero =>
    refine ⟨?_, ?_, ?_⟩
    · intro s hs
      simpa [reach_set] using hs
    · intro s hdist
      simpa [reach_set] using hdist.1
    · intro k
      constructor
      · intro hk; simp [bfs_frontier] at hk
      · rintro ⟨s, _, e, he, _⟩; omega
  | succ d ih =>
    obtain ⟨h1, h2, h3⟩ := ih
    have hnew := bfs_new_of_inv C starts hinj d h1 h2 h3
    have hfr1 : (bfs_frontier C starts (d + 1)).1 =
        next_frontier C (bfs_new C starts d) := rfl
    have hfr2 : (bfs_frontier C starts (d + 1)).2 =
        (bfs_stage C (bfs_frontier C starts d).1 (bfs_frontier C starts d).2).2 := rfl
    refine ⟨?_, ?_, ?_⟩
    · intro s hs
      rw [hfr1, next_frontier_mem] at hs
      obtain ⟨t, ht, hts⟩ := hs
      rw [mem_reach_set_succ]
      exact ⟨t, ((hnew t).mp ht).1, hts⟩
    · intro s hdist
      obtain ⟨t, htr, hts⟩ := (mem_reach_set_succ C starts s d).mp hdist.1
      obtain ⟨e, hed, hdt⟩ := exists_isBfsDist_le C starts d t htr
      rcases Nat.eq_or_lt_of_le hed with heq | hlt
      · subst heq
        rw [hfr1, next_frontier_mem]
        exact ⟨t, (hnew t).mpr hdt, hts⟩
      · exfalso
        have hsr : s ∈ reach_set C starts (e + 1) :=
          (mem_reach_set_succ C starts s e).mpr ⟨t, hdt.1, hts⟩
        exact hdist.2 (e + 1) (by omega) hsr
    · intro k
      rw [hfr2, bfs_stage_seen_mem, h3]
      constructor
      · rintro (⟨s, hsk, e, he, hdist⟩ | ⟨s, hs, hsk⟩)
        · exact ⟨s, hsk, e, by omega, hdist⟩
        · obtain ⟨e, hed, hdist⟩ := exists_isBfsDist_le C starts d s (h1 s hs)
          exact ⟨s, hsk, e, by omega, hdist⟩
      · rintro ⟨s, hsk, e, he, hdist⟩
        rcases Nat.lt_succ_iff_lt_or_eq.mp he with hlt | heq
        · exact Or.inl ⟨s, hsk, e, hlt, hdist⟩
        · subst heq
          exact Or.inr ⟨s, h2 s hdist, hsk⟩

/-- Membership in the newly seen states of stage `d`. -/
theorem mem_bfs_new (C : StateC S K) (starts : List S)
    (hinj : Function.Injective C.uniq_key) (d : Nat) (s : S) :
    s ∈ bfs_new C starts d ↔ IsBfsDist C starts s d := by
  obtain ⟨h1, h2, h3⟩ := bfs_inv C starts hinj d
  exact bfs_new_of_inv C starts hinj d h1 h2 h3 s

theorem bfs_new_nodup (C : StateC S K) (starts : List S)
    (hinj : Function.Injective C.uniq_key) (d : Nat) :
    (bfs_new C starts d).Nodup :=
  bfs_stage_nodup C hinj _ _

/-- Once a frontier is empty, all later frontiers and new-state lists are
empty. -/
theorem bfs_frontier_empty_propagates (C : StateC S K) (starts : List S) (e : Nat)
    (he : (bfs_frontier C starts e).1 = []) :
    ∀ j : Nat, (bfs_frontier C starts (e + j)).1 = [] ∧ bfs_new C starts (e + j) = [] := by
  have hstep : ∀ d, (bfs_frontier C starts d).1 = [] →
      bfs_new C starts d = [] ∧ (bfs_frontier C starts (d + 1)).1 = [] := by
    intro d hd
    have hnew : bfs_new C starts d = [] := by
      unfold bfs_new
      rw [hd]
      rfl
    constructor
    · exact hnew
    · show next_frontier C (bfs_new C starts d) = []
      rw [hnew]
      rfl
  intro j
  induction j with
  | zero => exact ⟨he, (hstep e he).1⟩
  | succ j ihj =>
    have := hstep (e + j) ihj.1
    constructor
    · show (bfs_frontier C starts (e + j + 1)).1 = []
      exact this.2
    · show bfs_new C starts (e + j + 1) = []
      exact (hstep (e + j + 1) this.2).1

end BfsLemmas

section CacheLemmas

variable {S K : Type} [DecidableEq S] [DecidableEq K]

theorem lookup_first_eq_some (k : K) (v : Nat) :
    ∀ l : List (K × Nat), (k, v) ∈ l → (∀ pr ∈ l, pr.1 = k → pr.2 = v) →
      lookup_first l k = some v := by
  intro l
  induction l with
  | nil => intro h _; cases h
  | cons pr rest ih =>
    intro hmem huniq
    obtain ⟨k0, v0⟩ := pr
    simp only [lookup_first]
    by_cases hk : k0 = k
    · rw [if_pos hk]
      have := huniq (k0, v0) (List.mem_cons_self _ _) hk
      simp only at this
      rw [this]
    · rw [if_neg hk]
      rcases List.mem_cons.mp hmem with heq | hmem'
      · injection heq with h1 h2
        exact absurd h1.symm hk
      · exact ih hmem' (fun pr hpr => huniq pr (List.mem_cons_of_mem _ hpr))

theorem lookup_first_eq_none (k : K) :
    ∀ l : List (K × Nat), (∀ pr ∈ l, pr.1 ≠ k) → lookup_first l k = none := by
  intro l
  induction l with
  | nil => intro _; rfl
  | cons pr rest ih =>
    intro hall
    obtain ⟨k0, v0⟩ := pr
    simp only [lookup_first]
    rw [if_neg (hall (k0, v0) (List.mem_cons_self _ _))]
    exact ih (fun pr hpr => hall pr (List.mem_cons_of_mem _ hpr))

/-- Contents of `bounded_cache_go` when started at stage `depth` of the BFS:
the input pairs plus one pair `(uniq_key s, d)` for every state `s` first
seen at some stage `d` within the remaining `r` depth values. -/
theorem bounded_cache_go_mem (C : StateC S K) (starts : List S)
    (hinj : Function.Injective C.uniq_key) :
    ∀ (r depth : Nat) (out : List (K × Nat)) (pr : K × Nat),
      pr ∈ bounded_cache_go C r depth (bfs_frontier C starts depth).1
          (bfs_frontier C starts depth).2 out ↔
        pr ∈ out ∨ ∃ d, depth ≤ d ∧ d < depth + r ∧
          ∃ s ∈ bfs_new C starts d, pr = (C.uniq_key s, d) := by
  intro r
  induction r with
  | zero =>
    intro depth out pr
    simp only [bounded_cache_go]
    constructor
    · exact Or.inl
    · rintro (h | ⟨d, h1, h2, _⟩)
      · exact h
      · omega
  | succ r ih =>
    intro depth out pr
    simp only [bounded_cache_go]
    have hstage : bfs_stage C (bfs_frontier C starts depth).1
        (bfs_frontier C starts depth).2 =
        (bfs_new C starts depth, (bfs_frontier C starts (depth + 1)).2) := rfl
    rw [hstage]
    have hnext : next_frontier C (bfs_new C starts depth) =
        (bfs_frontier C starts (depth + 1)).1 := rfl
    simp only [hnext]
    by_cases hempty : (bfs_frontier C starts (depth + 1)).1.isEmpty
    · rw [if_pos hempty]
      have hfr_empty : (bfs_frontier C starts (depth + 1)).1 = [] :=
        List.isEmpty_iff.mp hempty
      simp only [List.mem_append, List.mem_map]
      constructor
      · rintro (h | ⟨s, hs, heq⟩)
        · exact Or.inl h
        · exact Or.inr ⟨depth, le_refl _, by omega, s, hs, heq.symm⟩
      · rintro (h | ⟨d, h1, h2, s, hs, heq⟩)
        · exact Or.inl h
        · rcases Nat.eq_or_lt_of_le h1 with hdd | hdd
          · exact Or.inr ⟨s, hdd ▸ hs, (hdd ▸ heq).symm⟩
          · exfalso
            have := (bfs_frontier_empty_propagates C starts (depth + 1) hfr_empty
              (d - (depth + 1))).2
            rw [show depth + 1 + (d - (depth + 1)) = d by omega] at this
            rw [this] at hs
            cases hs
    · rw [if_neg hempty]
      rw [ih (depth + 1)]
      simp only [List.mem_append, List.mem_map]
      constructor
      · rintro ((h | ⟨s, hs, heq⟩) | ⟨d, h1, h2, s, hs, heq⟩)
        · exact Or.inl h
        · exact Or.inr ⟨depth, le_refl _, by omega, s, hs, heq.symm⟩
        · exact Or.inr ⟨d, by omega, by omega, s, hs, heq⟩
      · rintro (h | ⟨d, h1, h2, s, hs, heq⟩)
        · exact Or.inl (Or.inl h)
        · rcases Nat.eq_or_lt_of_le h1 with hdd | hdd
          · exact Or.inl (Or.inr ⟨s, hdd ▸ hs, (hdd ▸ heq).symm⟩)
          · exact Or.inr ⟨d, by omega, by omega, s, hs, heq⟩

/-- Contents of the bounded cache: exactly the pairs `(uniq_key s, d)` for
states `s` at BFS distance `d ≤ max_depth` from the start. -/
theorem bounded_cache_stored_mem (C : StateC S K) (D : Nat)
    (hinj : Function.Injective C.uniq_key) (pr : K × Nat) :
    pr ∈ (bounded_cache C D).stored ↔
      ∃ d, d ≤ D ∧ ∃ s, IsBfsDist C [C.start] s d ∧ pr = (C.uniq_key s, d) := by
  have h0 : [C.start] = (bfs_frontier C [C.start] 0).1 := rfl
  have h0' : (∅ : Finset K) = (bfs_frontier C [C.start] 0).2 := rfl
  show pr ∈ bounded_cache_go C (D + 1) 0 [C.start] ∅ [] ↔ _
  rw [h0, h0', bounded_cache_go_mem C [C.start] hinj (D + 1) 0 [] pr]
  simp only [List.not_mem_nil, false_or]
  constructor
  · rintro ⟨d, _, hd2, s, hs, heq⟩
    exact ⟨d, by omega, s, (mem_bfs_new C [C.start] hinj d s).mp hs, heq⟩
  · rintro ⟨d, hd, s, hdist, heq⟩
    exact ⟨d, Nat.zero_le _, by omega, s, (mem_bfs_new C [C.start] hinj d s).mpr hdist, heq⟩

end CacheLemmas

/-- C2: for every state whose BFS distance from the start is `d ≤ D`, the
cache built by `bounded_cache D` estimates exactly `d`; for every state whose
key is absent from the cache it estimates `D + 1`, and the key is absent
exactly when no BFS distance of at most `D` exists (distance above `D`,
or unreachable — including when BFS exhausted the space before depth `D`);
consequently the estimate never exceeds the true distance of any reachable
state.  Distinct states are assumed to have distinct unique keys, the
documented `UniqueKey` contract. -/
theorem claim_bounded_cache_admissible {S K : Type} [DecidableEq S] [DecidableEq K]
    (C : StateC S K) (D : Nat) (hinj : Function.Injective C.uniq_key) :
    (∀ s d, IsBfsDist C [C.start] s d → d ≤ D →
      (bounded_cache C D).estimated_remaining_cost C s = d) ∧
    (∀ s, (∀ pr ∈ (bounded_cache C D).stored, pr.1 ≠ C.uniq_key s) →
      (bounded_cache C D).estimated_remaining_cost C s = D + 1) ∧
    (∀ s, (∀ pr ∈ (bounded_cache C D).stored, pr.1 ≠ C.uniq_key s) ↔
      ¬∃ d, d ≤ D ∧ IsBfsDist C [C.start] s d) ∧
    (∀ s d, IsBfsDist C [C.start] s d →
      (bounded_cache C D).estimated_remaining_cost C s ≤ d) := by
  have habsent : ∀ s, (∀ pr ∈ (bounded_cache C D).stored, pr.1 ≠ C.uniq_key s) ↔
      ¬∃ d, d ≤ D ∧ IsBfsDist C [C.start] s d := by
    intro s
    constructor
    · rintro hall ⟨d, hd, hdist⟩
      exact hall (C.uniq_key s, d)
        ((bounded_cache_stored_mem C D hinj _).mpr ⟨d, hd, s, hdist, rfl⟩) rfl
    · intro hno pr hpr hk
      obtain ⟨d, hd, s', hdist, heq⟩ := (bounded_cache_stored_mem C D hinj pr).mp hpr
      subst heq
      have : s' = s := hinj hk
      subst this
      exact hno ⟨d, hd, hdist⟩
  have hexact : ∀ s d, IsBfsDist C [C.start] s d → d ≤ D →
      (bounded_cache C D).estimated_remaining_cost C s = d := by
    intro s d hdist hdD
    have hmem : (C.uniq_key s, d) ∈ (bounded_cache C D).stored :=
      (bounded_cache_stored_mem C D hinj _).mpr ⟨d, hdD, s, hdist, rfl⟩
    have huniq : ∀ pr ∈ (bounded_cache C D).stored, pr.1 = C.uniq_key s → pr.2 = d := by
      intro pr hpr hk
      obtain ⟨d', hd', s', hdist', heq⟩ := (bounded_cache_stored_mem C D hinj pr).mp hpr
      subst heq
      have hss : s' = s := hinj hk
      rw [hss] at hdist'
      exact isBfsDist_unique C [C.start] s d' d hdist' hdist
    unfold BoundedStateCache.estimated_remaining_cost
    rw [lookup_first_eq_some (C.uniq_key s) d _ hmem huniq]
    rfl
  have hfallback : ∀ s, (∀ pr ∈ (bounded_cache C D).stored, pr.1 ≠ C.uniq_key s) →
      (bounded_cache C D).estimated_remaining_cost C s = D + 1 := by
    intro s hall
    unfold BoundedStateCache.estimated_remaining_cost
    rw [lookup_first_eq_none (C.uniq_key s) _ hall]
    rfl
  refine ⟨hexact, hfallback, habsent, ?_⟩
  intro s d hdist
  by_cases hdD : d ≤ D
  · rw [hexact s d hdist hdD]
  · rw [hfallback s ((habsent s).mpr ?_)]
    · omega
    · rintro ⟨d', hd', hdist'⟩
      have := isBfsDist_unique C [C.start] s d d' hdist hdist'
      omega

/-- C2 witness: the cyclic 3-state puzzle with build depth 0: state 0 (the
start) gets its exact distance 0, and state 1 (distance 1, beyond the build
depth) falls back to 1. -/
theorem claim_bounded_cache_admissible_witness :
    ((∀ s d, IsBfsDist cyc3_state [cyc3_state.start] s d → d ≤ 0 →
      (bounded_cache cyc3_state 0).estimated_remaining_cost cyc3_state s = d) ∧
    (∀ s, (∀ pr ∈ (bounded_cache cyc3_state 0).stored, pr.1 ≠ cyc3_state.uniq_key s) →
      (bounded_cache cyc3_state 0).estimated_remaining_cost cyc3_state s = 0 + 1) ∧
    (∀ s, (∀ pr ∈ (bounded_cache cyc3_state 0).stored, pr.1 ≠ cyc3_state.uniq_key s) ↔
      ¬∃ d, d ≤ 0 ∧ IsBfsDist cyc3_state [cyc3_state.start] s d) ∧
    (∀ s d, IsBfsDist cyc3_state [cyc3_state.start] s d →
      (bounded_cache cyc3_state 0).estimated_remaining_cost cyc3_state s ≤ d)) ∧
    (bounded_cache cyc3_state 0).estimated_remaining_cost cyc3_state 0 = 0 ∧
    (bounded_cache cyc3_state 0).estimated_remaining_cost cyc3_state 1 = 1 :=
  ⟨claim_bounded_cache_admissible cyc3_state 0 (fun a b h => h), by decide, by decide⟩

section EnumeratorLemmas

variable {S K : Type} [DecidableEq S] [DecidableEq K] [Fintype S]

theorem countP_nodup_eq_card (l : List S) (hl : l.Nodup)
    (Q : S → Prop) [DecidablePred Q] (hm : ∀ s, s ∈ l ↔ Q s) (p : S → Bool) :
    l.countP p = (Finset.univ.filter (fun s => Q s ∧ p s = true)).card := by
  rw [List.countP_eq_length_filter]
  rw [← List.toFinset_card_of_nodup (hl.filter p)]
  congr 1
  ext s
  simp only [List.mem_toFinset, List.mem_filter, Finset.mem_filter, Finset.mem_univ,
    true_and, hm s]

theorem bfs_new_countP (C : StateC S K) (starts : List S)
    (hinj : Function.Injective C.uniq_key) (d : Nat) :
    (bfs_new C starts d).countP C.should_count_as_config = config_count C starts d := by
  unfold config_count
  exact countP_nodup_eq_card _ (bfs_new_nodup C starts hinj d) _
    (mem_bfs_new C starts hinj d) _

theorem exists_config_count_zero (C : StateC S K) (starts : List S) :
    ∃ b, b ≤ Fintype.card S ∧ config_count C starts b = 0 := by
  by_contra hno
  push_neg at hno
  have hpick : ∀ b : Fin (Fintype.card S + 1), ∃ s : S,
      IsBfsDist C starts s b.val ∧ C.should_count_as_config s = true := by
    intro b
    have hb := hno b.val (by omega)
    have hne : (Finset.univ.filter
        (fun s => IsBfsDist C starts s b.val ∧
          C.should_count_as_config s = true)).Nonempty :=
      Finset.card_pos.mp (Nat.pos_of_ne_zero hb)
    obtain ⟨s, hs⟩ := hne
    rw [Finset.mem_filter] at hs
    exact ⟨s, hs.2⟩
  choose g hg using hpick
  have hginj : Function.Injective g := by
    intro a b hab
    have h1 := (hg a).1
    have h2 := (hg b).1
    rw [hab] at h1
    exact Fin.ext (isBfsDist_unique C starts (g b) a.val b.val h1 h2)
  have hcard := Fintype.card_le_of_injective g hginj
  rw [Fintype.card_fin] at hcard
  omega

/-- Behavior of `enumerate_go` when started at stage `depth`, where `b` is
the first depth at or after `depth` with no new counted configurations: it
returns the accumulated counts followed by one entry per depth in
`[depth, b)`. -/
theorem enumerate_go_spec (C : StateC S K) (starts : List S)
    (hinj : Function.Injective C.uniq_key) :
    ∀ (fuel depth : Nat) (counts : List (Nat × Nat)) (b : Nat),
      depth ≤ b → b - depth < fuel → config_count C starts b = 0 →
      (∀ d', depth ≤ d' → d' < b → config_count C starts d' ≠ 0) →
      enumerate_go C fuel (bfs_frontier C starts depth).1
          (bfs_frontier C starts depth).2 depth counts =
        some (counts ++ (List.range' depth (b - depth)).map
          (fun d => (d, config_count C starts d))) := by
  intro fuel
  induction fuel with
  | zero => intro depth counts b h1 h2 h3 h4; omega
  | succ fuel ih =>
    intro depth counts b h1 h2 h3 h4
    simp only [enumerate_go]
    have hstage : bfs_stage C (bfs_frontier C starts depth).1
        (bfs_frontier C starts depth).2 =
        (bfs_new C starts depth, (bfs_frontier C starts (depth + 1)).2) := rfl
    rw [hstage]
    have hcnt : (bfs_new C starts depth, (bfs_frontier C starts (depth + 1)).2).1.countP
        C.should_count_as_config = config_count C starts depth :=
      bfs_new_countP C starts hinj depth
    rw [hcnt]
    rcases Nat.eq_or_lt_of_le h1 with heq | hlt
    · subst heq
      rw [if_pos h3]
      simp
    · rw [if_neg (h4 depth (le_refl _) hlt)]
      have hnext : next_frontier C
          (bfs_new C starts depth, (bfs_frontier C starts (depth + 1)).2).1 =
          (bfs_frontier C starts (depth + 1)).1 := rfl
      rw [hnext]
      rw [ih (depth + 1) (counts ++ [(depth, config_count C starts depth)]) b
        (by omega) (by omega) h3 (fun d' hd1 hd2 => h4 d' (by omega) hd2)]
      congr 1
      rw [List.append_assoc]
      congr 1
      have hsplit : b - depth = (b - (depth + 1)) + 1 := by omega
      rw [hsplit, List.range'_succ]
      simp

end EnumeratorLemmas

/-- C4: for a finite state space (and injective unique keys, the documented
`UniqueKey` contract), the enumerator terminates — fuel `Fintype.card S + 1`
always suffices for the unbounded Rust loop — and it stops exactly at the
first depth `b` where no new counted configuration appears (in particular as
soon as the next frontier is empty); the returned histogram has the gapless
keys `0, …, b-1`, and the count at each depth `d` is the number of
distinct-by-`uniq_key` states first reached at BFS depth `d` that satisfy
`should_count_as_config`. -/
theorem claim_enumerate_state_space {S K : Type} [DecidableEq S] [DecidableEq K]
    [Fintype S] (C : StateC S K) (starts : List S)
    (hinj : Function.Injective C.uniq_key) :
    ∃ b, b ≤ Fintype.card S ∧
      enumerate_state_space_started C starts (Fintype.card S + 1) =
        some ((List.range b).map (fun d => (d, config_count C starts d))) ∧
      (∀ d, d < b → config_count C starts d ≠ 0) ∧
      config_count C starts b = 0 := by
  obtain ⟨b0, hb0, hz0⟩ := exists_config_count_zero C starts
  have hexz : ∃ b, config_count C starts b = 0 := ⟨b0, hz0⟩
  refine ⟨Nat.find hexz, ?_, ?_, ?_, Nat.find_spec hexz⟩
  · have := Nat.find_min' hexz hz0
    omega
  · have hsp := enumerate_go_spec C starts hinj (Fintype.card S + 1) 0 [] (Nat.find hexz)
      (Nat.zero_le _) (by have := Nat.find_min' hexz hz0; omega) (Nat.find_spec hexz)
      (fun d' _ hd' => Nat.find_min hexz hd')
    unfold enumerate_state_space_started
    rw [List.range_eq_range']
    simpa using hsp
  · exact fun d hd => Nat.find_min hexz hd

/-- C4 witness: the two-move, 3-position coordinate puzzle has histogram
`{0: 1, 1: 2}` with total 3, and the general theorem applies to it. -/
theorem claim_enumerate_state_space_witness :
    (∃ b, b ≤ Fintype.card (Fin 3) ∧
      enumerate_state_space_started cyc3_state [cyc3_state.start]
          (Fintype.card (Fin 3) + 1) =
        some ((List.range b).map
          (fun d => (d, config_count cyc3_state [cyc3_state.start] d))) ∧
      (∀ d, d < b → config_count cyc3_state [cyc3_state.start] d ≠ 0) ∧
      config_count cyc3_state [cyc3_state.start] b = 0) ∧
    enumerate_state_space_started cyc3_state [cyc3_state.start] 4 =
      some [(0, 1), (1, 2)] ∧
    (([(0, 1), (1, 2)] : List (Nat × Nat)).map Prod.snd).sum = 3 :=
  ⟨claim_enumerate_state_space cyc3_state [cyc3_state.start] (fun a b h => h),
    by decide, by decide⟩

/-! ## Permutation parity correctness -/

section ParityLemmas

variable {n : Nat}

theorem mem_orb (f : Equiv.Perm (Fin n)) (i j : Fin n) :
    j ∈ orb f i ↔ f.SameCycle i j := by
  simp [orb]

theorem self_mem_orb (f : Equiv.Perm (Fin n)) (i : Fin n) : i ∈ orb f i :=
  (mem_orb f i i).mpr (Equiv.Perm.SameCycle.refl f i)

theorem orb_nonempty (f : Equiv.Perm (Fin n)) (i : Fin n) : (orb f i).Nonempty :=
  ⟨i, self_mem_orb f i⟩

theorem orb_eq_of_mem (f : Equiv.Perm (Fin n)) (i j : Fin n) (hj : j ∈ orb f i) :
    orb f j = orb f i := by
  rw [mem_orb] at hj
  ext l
  rw [mem_orb, mem_orb]
  exact ⟨fun h => hj.trans h, fun h => (hj.symm).trans h⟩

theorem perm_mem_periodicPts (f : Equiv.Perm (Fin n)) (i : Fin n) :
    i ∈ Function.periodicPts ⇑f := by
  refine Function.mk_mem_periodicPts (orderOf_pos f) ?_
  show (⇑f)^[orderOf f] i = i
  rw [Equiv.Perm.iterate_eq_pow, pow_orderOf_eq_one]
  rfl

theorem minimalPeriod_pos (f : Equiv.Perm (Fin n)) (i : Fin n) :
    0 < Function.minimalPeriod ⇑f i :=
  Function.minimalPeriod_pos_of_mem_periodicPts (perm_mem_periodicPts f i)

theorem orb_eq_image (f : Equiv.Perm (Fin n)) (i : Fin n) :
    orb f i = (Finset.range (Function.minimalPeriod ⇑f i)).image
      (fun t => (⇑f)^[t] i) := by
  ext j
  rw [mem_orb, Finset.mem_image]
  constructor
  · intro hj
    obtain ⟨m, _, hmj⟩ := hj.exists_pow_eq'
    refine ⟨m % Function.minimalPeriod ⇑f i,
      Finset.mem_range.mpr (Nat.mod_lt _ (minimalPeriod_pos f i)), ?_⟩
    rw [Function.iterate_mod_minimalPeriod_eq, Equiv.Perm.iterate_eq_pow]
    exact hmj
  · rintro ⟨t, _, rfl⟩
    rw [Equiv.Perm.iterate_eq_pow]
    exact Equiv.Perm.sameCycle_pow_right.mpr (Equiv.Perm.SameCycle.refl f i)

theorem orb_iterate_inj (f : Equiv.Perm (Fin n)) (i : Fin n) (a b : Nat)
    (ha : a < Function.minimalPeriod ⇑f i) (hb : b < Function.minimalPeriod ⇑f i)
    (hab : (⇑f)^[a] i = (⇑f)^[b] i) : a = b :=
  Function.iterate_injOn_Iio_minimalPeriod (Set.mem_Iio.mpr ha) (Set.mem_Iio.mpr hb) hab

theorem orb_card_eq (f : Equiv.Perm (Fin n)) (i : Fin n) :
    (orb f i).card = Function.minimalPeriod ⇑f i := by
  rw [orb_eq_image, Finset.card_image_of_injOn, Finset.card_range]
  intro a ha b hb hab
  rw [Finset.coe_range, Set.mem_Iio] at ha hb
  exact orb_iterate_inj f i a b ha hb hab

theorem orb_card_le (f : Equiv.Perm (Fin n)) (i : Fin n) : (orb f i).card ≤ n := by
  have := Finset.card_le_card (Finset.subset_univ (orb f i))
  rwa [Finset.card_univ, Fintype.card_fin] at this

theorem iterate_mem_orb (f : Equiv.Perm (Fin n)) (i : Fin n) (t : Nat) :
    (⇑f)^[t] i ∈ orb f i := by
  rw [← Function.iterate_mod_minimalPeriod_eq, orb_eq_image]
  exact Finset.mem_image.mpr ⟨t % Function.minimalPeriod ⇑f i,
    Finset.mem_range.mpr (Nat.mod_lt _ (minimalPeriod_pos f i)), rfl⟩

theorem cycle_walk_stop (f : Equiv.Perm (Fin n)) (seen : Finset (Fin n)) (j : Fin n)
    (hj : j ∈ seen) : ∀ fuel, cycle_walk f fuel seen j = (seen, 0) := by
  intro fuel
  cases fuel with
  | zero => rfl
  | succ fl => simp [cycle_walk, hj]

/-- The marked set after walking part of the cycle of `i`: the first `c`
successors of `i`. -/
theorem insert_iterate_marks (f : Equiv.Perm (Fin n)) (i : Fin n) (c : Nat) :
    insert ((⇑f)^[c + 1] i)
        ((Finset.range c).image (fun t => (⇑f)^[t + 1] i)) =
      (Finset.range (c + 1)).image (fun t => (⇑f)^[t + 1] i) := by
  rw [Finset.range_succ, Finset.image_insert]

/-- Marking the start `i` after its `k - 1` successors completes the orbit. -/
theorem insert_start_marks (f : Equiv.Perm (Fin n)) (i : Fin n) :
    insert i ((Finset.range (Function.minimalPeriod ⇑f i - 1)).image
        (fun t => (⇑f)^[t + 1] i)) = orb f i := by
  have hk := minimalPeriod_pos f i
  rw [orb_eq_image]
  ext j
  simp only [Finset.mem_insert, Finset.mem_image, Finset.mem_range]
  constructor
  · rintro (rfl | ⟨t, ht, rfl⟩)
    · exact ⟨0, by omega, rfl⟩
    · exact ⟨t + 1, by omega, rfl⟩
  · rintro ⟨s, hs, rfl⟩
    cases s with
    | zero => exact Or.inl rfl
    | succ t => exact Or.inr ⟨t, by omega, rfl⟩

/-- The `while` loop walked from position `k - m` of the cycle of `i` (with
the earlier positions already marked) marks the rest of the orbit and makes
`m + 1` more steps. -/
theorem cycle_walk_seg (f : Equiv.Perm (Fin n)) (i : Fin n) (seen0 : Finset (Fin n))
    (hdisj : Disjoint (orb f i) seen0) :
    ∀ m : Nat, m < Function.minimalPeriod ⇑f i → ∀ fuel, m + 2 ≤ fuel →
      cycle_walk f fuel
        (seen0 ∪ (Finset.range (Function.minimalPeriod ⇑f i - m - 1)).image
          (fun t => (⇑f)^[t + 1] i))
        ((⇑f)^[Function.minimalPeriod ⇑f i - m] i) =
      (seen0 ∪ orb f i, m + 1) := by
  have hk := minimalPeriod_pos f i
  intro m
  induction m with
  | zero =>
    intro hm fuel hfuel
    cases fuel with
    | zero => omega
    | succ fl =>
      have hpos : (⇑f)^[Function.minimalPeriod ⇑f i - 0] i = i := by
        rw [Nat.sub_zero]
        exact Function.iterate_minimalPeriod
      rw [hpos]
      have hnotin : i ∉ seen0 ∪ (Finset.range (Function.minimalPeriod ⇑f i - 0 - 1)).image
          (fun t => (⇑f)^[t + 1] i) := by
        rw [Finset.mem_union]
        rintro (h0 | hM)
        · exact (Finset.disjoint_left.mp hdisj (self_mem_orb f i)) h0
        · obtain ⟨t, ht, hti⟩ := Finset.mem_image.mp hM
          rw [Finset.mem_range] at ht
          have : t + 1 = 0 := orb_iterate_inj f i (t + 1) 0 (by omega) (by omega)
            (by rw [hti]; rfl)
          omega
      simp only [cycle_walk, if_neg hnotin]
      have hfstep : f i ∈ insert i (seen0 ∪
          (Finset.range (Function.minimalPeriod ⇑f i - 0 - 1)).image
            (fun t => (⇑f)^[t + 1] i)) := by
        by_cases h1 : Function.minimalPeriod ⇑f i = 1
        · have : f i = i := by
            have := Function.iterate_minimalPeriod (f := ⇑f) (x := i)
            rw [h1, Function.iterate_one] at this
            exact this
          rw [this]
          exact Finset.mem_insert_self _ _
        · refine Finset.mem_insert_of_mem (Finset.mem_union_right _ ?_)
          refine Finset.mem_image.mpr ⟨0, ?_, ?_⟩
          · rw [Finset.mem_range]; omega
          · rw [Function.iterate_one]
      rw [cycle_walk_stop f _ _ hfstep fl]
      have hins : insert i (seen0 ∪
          (Finset.range (Function.minimalPeriod ⇑f i - 0 - 1)).image
            (fun t => (⇑f)^[t + 1] i)) = seen0 ∪ orb f i := by
        rw [← Finset.union_insert]
        rw [Nat.sub_zero]
        rw [insert_start_marks f i]
      rw [hins]
  | succ m ih =>
    intro hm fuel hfuel
    cases fuel with
    | zero => omega
    | succ fl =>
      have hidx : Function.minimalPeriod ⇑f i - (m + 1) < Function.minimalPeriod ⇑f i := by
        omega
      have hidx1 : 1 ≤ Function.minimalPeriod ⇑f i - (m + 1) := by omega
      have hnotin : (⇑f)^[Function.minimalPeriod ⇑f i - (m + 1)] i ∉ seen0 ∪
          (Finset.range (Function.minimalPeriod ⇑f i - (m + 1) - 1)).image
            (fun t => (⇑f)^[t + 1] i) := by
        rw [Finset.mem_union]
        rintro (h0 | hM)
        · exact (Finset.disjoint_left.mp hdisj (iterate_mem_orb f i _)) h0
        · obtain ⟨t, ht, hti⟩ := Finset.mem_image.mp hM
          rw [Finset.mem_range] at ht
          have := orb_iterate_inj f i (t + 1) (Function.minimalPeriod ⇑f i - (m + 1))
            (by omega) hidx hti
          omega
      simp only [cycle_walk, if_neg hnotin]
      have hnext : f ((⇑f)^[Function.minimalPeriod ⇑f i - (m + 1)] i) =
          (⇑f)^[Function.minimalPeriod ⇑f i - m] i := by
        have harg : Function.minimalPeriod ⇑f i - m =
            (Function.minimalPeriod ⇑f i - (m + 1)) + 1 := by omega
        rw [harg, Function.iterate_succ_apply']
      have hins : insert ((⇑f)^[Function.minimalPeriod ⇑f i - (m + 1)] i) (seen0 ∪
          (Finset.range (Function.minimalPeriod ⇑f i - (m + 1) - 1)).image
            (fun t => (⇑f)^[t + 1] i)) =
          seen0 ∪ (Finset.range (Function.minimalPeriod ⇑f i - m - 1)).image
            (fun t => (⇑f)^[t + 1] i) := by
        rw [← Finset.union_insert]
        congr 1
        have harg : (⇑f)^[Function.minimalPeriod ⇑f i - (m + 1)] i =
            (⇑f)^[(Function.minimalPeriod ⇑f i - (m + 1) - 1) + 1] i := by
          congr 1
          omega
        rw [harg, insert_iterate_marks]
        congr 2
        omega
      rw [hnext, hins, ih (by omega) fl (by omega)]

/-- The full `while` loop from `p[i]` with the orbit of `i` untouched: marks
exactly the orbit and counts its size; fuel `n + 1` always suffices. -/
theorem cycle_walk_orb (f : Equiv.Perm (Fin n)) (i : Fin n) (seen0 : Finset (Fin n))
    (hdisj : Disjoint (orb f i) seen0) :
    cycle_walk f (n + 1) seen0 (f i) = (seen0 ∪ orb f i, (orb f i).card) := by
  have hk := minimalPeriod_pos f i
  have hkn : Function.minimalPeriod ⇑f i ≤ n := by
    rw [← orb_card_eq]; exact orb_card_le f i
  have := cycle_walk_seg f i seen0 hdisj (Function.minimalPeriod ⇑f i - 1)
    (by omega) (n + 1) (by omega)
  have hpos : Function.minimalPeriod ⇑f i - (Function.minimalPeriod ⇑f i - 1) = 1 := by
    omega
  rw [hpos, Function.iterate_one] at this
  simp only [show (1 : Nat) - 1 = 0 from rfl, Finset.range_zero, Finset.image_empty,
    Finset.union_empty] at this
  rw [this, orb_card_eq]
  congr 1
  omega

/-- Each cycle contributes to the even-cycle count exactly one representative
(its minimum) when its length is even, and none otherwise. -/
theorem orb_filter_rep_even (f : Equiv.Perm (Fin n)) (i : Fin n) :
    ((orb f i).filter (fun j => is_orb_rep f j ∧ (orb f j).card % 2 = 0)).card =
      if (orb f i).card % 2 = 0 then 1 else 0 := by
  have hne := orb_nonempty f i
  have hmmem : (orb f i).min' hne ∈ orb f i := (orb f i).min'_mem hne
  have hmorb : orb f ((orb f i).min' hne) = orb f i := orb_eq_of_mem f i _ hmmem
  have hmrep : is_orb_rep f ((orb f i).min' hne) := by
    intro j hj
    rw [hmorb] at hj
    exact Finset.min'_le _ j hj
  have huniq : ∀ j ∈ orb f i, is_orb_rep f j → j = (orb f i).min' hne := by
    intro j hj hrep
    have hjm : j ≤ (orb f i).min' hne := hrep _ (by
      rw [orb_eq_of_mem f i j hj]; exact hmmem)
    exact le_antisymm hjm (Finset.min'_le _ j hj)
  by_cases hpar : (orb f i).card % 2 = 0
  · rw [if_pos hpar]
    have hfe : (orb f i).filter (fun j => is_orb_rep f j ∧ (orb f j).card % 2 = 0) =
        {(orb f i).min' hne} := by
      ext j
      simp only [Finset.mem_filter, Finset.mem_singleton]
      constructor
      · rintro ⟨hj, hrep, _⟩
        exact huniq j hj hrep
      · rintro rfl
        exact ⟨hmmem, hmrep, by rw [hmorb]; exact hpar⟩
    rw [hfe, Finset.card_singleton]
  · rw [if_neg hpar]
    rw [Finset.card_eq_zero]
    ext j
    simp only [Finset.mem_filter, Finset.not_mem_empty, iff_false, not_and]
    intro hj hrep heven
    rw [orb_eq_of_mem f i j hj] at heven
    exact hpar heven

theorem even_orb_count_union (f : Equiv.Perm (Fin n)) (A : Finset (Fin n)) (i : Fin n)
    (hdisj : Disjoint (orb f i) A) :
    even_orb_count f (A ∪ orb f i) =
      even_orb_count f A + (if (orb f i).card % 2 = 0 then 1 else 0) := by
  unfold even_orb_count
  rw [Finset.filter_union]
  rw [Finset.card_union_of_disjoint (Finset.disjoint_filter_filter hdisj.symm)]
  rw [orb_filter_rep_even]

/-- Invariant of the outer loop of `Permutation::parity`: if the seen set is
a union of cycles and `acc` holds the parity of the number of even-length
cycles inside it, running the loop over the remaining indices (which cover
everything unseen) yields the parity of the total number of even-length
cycles. -/
theorem parity_go_spec (f : Equiv.Perm (Fin n)) :
    ∀ (l : List (Fin n)) (A : Finset (Fin n)) (acc : Bool),
      (∀ j ∈ A, ∀ l', f.SameCycle j l' → l' ∈ A) →
      (∀ j : Fin n, j ∉ A → j ∈ l) →
      acc = decide (Odd (even_orb_count f A)) →
      parity_go f l A acc = decide (Odd (even_orb_count f Finset.univ)) := by
  intro l
  induction l with
  | nil =>
    intro A acc hcl hcov hacc
    have hA : A = Finset.univ := by
      ext j
      simp only [Finset.mem_univ, iff_true]
      by_contra hj
      exact absurd (hcov j hj) (List.not_mem_nil j)
    rw [show parity_go f [] A acc = acc from rfl, hacc, hA]
  | cons i rest ih =>
    intro A acc hcl hcov hacc
    simp only [parity_go]
    by_cases hi : i ∈ A
    · rw [if_pos hi]
      apply ih A acc hcl _ hacc
      intro j hj
      rcases List.mem_cons.mp (hcov j hj) with heq | hmem
      · subst heq; exact absurd hi hj
      · exact hmem
    · rw [if_neg hi]
      have hdisj : Disjoint (orb f i) A := by
        rw [Finset.disjoint_left]
        intro j hj hjA
        rw [mem_orb] at hj
        exact hi (hcl j hjA i hj.symm)
      rw [cycle_walk_orb f i A hdisj]
      apply ih (A ∪ orb f i)
      · intro j hj l' hsc
        rcases Finset.mem_union.mp hj with hjA | hjO
        · exact Finset.mem_union_left _ (hcl j hjA l' hsc)
        · rw [mem_orb] at hjO
          exact Finset.mem_union_right _ ((mem_orb f i l').mpr (hjO.trans hsc))
      · intro j hj
        rw [Finset.mem_union] at hj
        push_neg at hj
        rcases List.mem_cons.mp (hcov j hj.1) with heq | hmem
        · exfalso
          exact hj.2 (heq ▸ self_mem_orb f i)
        · exact hmem
      · rw [even_orb_count_union f A i hdisj]
        by_cases hpar : (orb f i).card % 2 = 0
        · rw [if_pos hpar, if_pos (show ((orb f i).card + 1) % 2 = 1 by omega), hacc]
          have hflip : Odd (even_orb_count f A + 1) ↔ ¬Odd (even_orb_count f A) := by
            rw [Nat.odd_iff, Nat.odd_iff]
            omega
          rw [show decide (Odd (even_orb_count f A + 1)) =
              decide (¬Odd (even_orb_count f A)) from decide_eq_decide.mpr hflip]
          rw [decide_not]
        · rw [if_neg hpar, if_neg (show ¬((orb f i).card + 1) % 2 = 1 by omega)]
          rw [Nat.add_zero]
          exact hacc

/-- The parity algorithm returns `Odd` exactly when the number of even-length
cycles of the decomposition (counted via minimal representatives) is odd. -/
theorem parity_odd_iff_even_orb (f : Equiv.Perm (Fin n)) :
    Permutation.parity f = TwoParity.Odd ↔ Odd (even_orb_count f Finset.univ) := by
  unfold Permutation.parity
  have hgo : parity_go f (List.finRange n) ∅ false =
      decide (Odd (even_orb_count f Finset.univ)) := by
    apply parity_go_spec
    · intro j hj
      exact absurd hj (Finset.not_mem_empty j)
    · intro j _
      exact List.mem_finRange j
    · have h0 : even_orb_count f (∅ : Finset (Fin n)) = 0 := by
        unfold even_orb_count
        simp
      rw [h0]
      simp [Nat.odd_iff]
  rw [hgo]
  by_cases hodd : Odd (even_orb_count f Finset.univ)
  · simp [hodd]
  · simp [hodd]

theorem orb_of_fixed (f : Equiv.Perm (Fin n)) (i : Fin n) (hfix : f i = i) :
    orb f i = {i} := by
  ext j
  rw [mem_orb, Finset.mem_singleton]
  constructor
  · rintro ⟨z, hz⟩
    rw [Equiv.Perm.zpow_apply_eq_self_of_apply_eq_self hfix] at hz
    exact hz.symm
  · rintro rfl
    exact Equiv.Perm.SameCycle.refl f _

theorem mem_support_of_even_orb (f : Equiv.Perm (Fin n)) (i : Fin n)
    (heven : (orb f i).card % 2 = 0) : i ∈ f.support := by
  rw [Equiv.Perm.mem_support]
  intro hfix
  rw [orb_of_fixed f i hfix] at heven
  simp at heven

theorem support_cycleOf_eq_orb (f : Equiv.Perm (Fin n)) (i : Fin n)
    (hi : i ∈ f.support) : (f.cycleOf i).support = orb f i := by
  ext j
  rw [Equiv.Perm.mem_support_cycleOf_iff, mem_orb]
  exact ⟨fun h => h.1, fun h => ⟨h, hi⟩⟩

theorem even_cycle_count_eq_filter (f : Equiv.Perm (Fin n)) :
    even_cycle_count f =
      (f.cycleFactorsFinset.filter (fun c => c.support.card % 2 = 0)).card := by
  unfold even_cycle_count
  rw [Equiv.Perm.cycleType_def, Multiset.filter_map, Multiset.card_map]
  rfl

/-- The count of even-length cycles via minimal representatives coincides
with the count via `cycleType` (the cycle factors of the decomposition). -/
theorem even_orb_count_univ_eq (f : Equiv.Perm (Fin n)) :
    even_orb_count f Finset.univ = even_cycle_count f := by
  rw [even_cycle_count_eq_filter]
  unfold even_orb_count
  apply Finset.card_bij (fun i _ => f.cycleOf i)
  · intro i hi
    rw [Finset.mem_filter] at hi
    obtain ⟨-, hrep, heven⟩ := hi
    have hsup : i ∈ f.support := mem_support_of_even_orb f i heven
    rw [Finset.mem_filter]
    refine ⟨Equiv.Perm.cycleOf_mem_cycleFactorsFinset_iff.mpr hsup, ?_⟩
    rw [support_cycleOf_eq_orb f i hsup]
    exact heven
  · intro a ha b hb hab
    rw [Finset.mem_filter] at ha hb
    obtain ⟨-, hrepa, hevena⟩ := ha
    obtain ⟨-, hrepb, hevenb⟩ := hb
    have hsa := mem_support_of_even_orb f a hevena
    have hsb := mem_support_of_even_orb f b hevenb
    have horb : orb f a = orb f b := by
      rw [← support_cycleOf_eq_orb f a hsa, ← support_cycleOf_eq_orb f b hsb, hab]
    have hba : b ∈ orb f a := by rw [horb]; exact self_mem_orb f b
    have hab' : a ∈ orb f b := by rw [← horb]; exact self_mem_orb f a
    exact le_antisymm (hrepa b hba) (hrepb a hab')
  · intro c hc
    rw [Finset.mem_filter] at hc
    obtain ⟨hcf, hceven⟩ := hc
    have hcyc : c.IsCycle := (Equiv.Perm.mem_cycleFactorsFinset_iff.mp hcf).1
    obtain ⟨x, hx, -⟩ := hcyc
    have hxsup : x ∈ c.support := Equiv.Perm.mem_support.mpr hx
    have hceq : c = f.cycleOf x := Equiv.Perm.cycle_is_cycleOf hxsup hcf
    have hxf : x ∈ f.support := by
      rw [Equiv.Perm.mem_support]
      have hcx := (Equiv.Perm.mem_cycleFactorsFinset_iff.mp hcf).2 x hxsup
      rw [← hcx]
      exact hx
    have hne := orb_nonempty f x
    have hmmem : (orb f x).min' hne ∈ orb f x := Finset.min'_mem _ _
    have hmorb : orb f ((orb f x).min' hne) = orb f x := orb_eq_of_mem f x _ hmmem
    have hscycle : f.SameCycle x ((orb f x).min' hne) := (mem_orb f x _).mp hmmem
    have hcm : f.cycleOf ((orb f x).min' hne) = c := by
      rw [hceq]
      exact hscycle.cycleOf_eq.symm
    refine ⟨(orb f x).min' hne, ?_, hcm⟩
    rw [Finset.mem_filter]
    refine ⟨Finset.mem_univ _, ?_, ?_⟩
    · intro j hj
      rw [hmorb] at hj
      exact Finset.min'_le _ j hj
    · rw [hmorb, ← support_cycleOf_eq_orb f x hxf, ← hceq]
      exact hceven

theorem multiset_even_filter_parity (m : Multiset Nat) :
    (m.sum + Multiset.card m) % 2 =
      Multiset.card (m.filter (fun k => k % 2 = 0)) % 2 := by
  induction m using Multiset.induction_on with
  | empty => rfl
  | cons a s ih =>
    rw [Multiset.sum_cons, Multiset.card_cons, Multiset.filter_cons]
    by_cases ha : a % 2 = 0
    · rw [if_pos ha, Multiset.card_add, Multiset.card_singleton]
      omega
    · rw [if_neg ha, Multiset.card_add]
      simp only [Multiset.card_zero, Nat.zero_add]
      omega

/-- The sign of a permutation is `-1` exactly when it has an odd number of
even-length cycles. -/
theorem sign_neg_one_iff (f : Equiv.Perm (Fin n)) :
    Equiv.Perm.sign f = -1 ↔ Odd (even_cycle_count f) := by
  rw [Equiv.Perm.sign_of_cycleType]
  have hpar := multiset_even_filter_parity f.cycleType
  unfold even_cycle_count
  constructor
  · intro hsign
    rcases Nat.even_or_odd (f.cycleType.sum + Multiset.card f.cycleType) with he | ho
    · rw [he.neg_one_pow] at hsign
      exact absurd hsign (by decide)
    · rw [Nat.odd_iff] at ho ⊢
      omega
  · intro hodd
    have ho : Odd (f.cycleType.sum + Multiset.card f.cycleType) := by
      rw [Nat.odd_iff] at hodd ⊢
      omega
    exact ho.neg_one_pow

/-- The parity algorithm agrees with the permutation sign. -/
theorem parity_odd_iff_sign (f : Equiv.Perm (Fin n)) :
    Permutation.parity f = TwoParity.Odd ↔ Equiv.Perm.sign f = -1 := by
  rw [parity_odd_iff_even_orb, even_orb_count_univ_eq, sign_neg_one_iff]

end ParityLemmas

/-- C6: `Permutation::parity` returns `Odd` exactly when the number of
even-length cycles in the cycle decomposition (the entries of the cycle
type) is odd, and `Even` otherwise. -/
theorem claim_permutation_parity {n : Nat} (f : Equiv.Perm (Fin n)) :
    (Permutation.parity f = TwoParity.Odd ↔ Odd (even_cycle_count f)) ∧
    (Permutation.parity f = TwoParity.Even ↔ ¬Odd (even_cycle_count f)) := by
  have hodd := parity_odd_iff_even_orb f
  rw [even_orb_count_univ_eq f] at hodd
  refine ⟨hodd, ?_⟩
  constructor
  · intro he hoddc
    rw [← hodd] at hoddc
    rw [he] at hoddc
    cases hoddc
  · intro hnodd
    cases hp : Permutation.parity f with
    | Even => rfl
    | Odd => exact absurd (hodd.mp hp) hnodd

/-- C7: for `n ≥ 2` and any outcome of the shuffle, `with_parity` returns a
permutation whose `parity()` is the desired one; it composes the draw with
the transposition of the first two indices exactly when the draw has the
wrong parity, and returns the draw unchanged otherwise. -/
theorem claim_with_parity {n : Nat} (h2 : 2 ≤ n) (draw : Equiv.Perm (Fin n))
    (desired : TwoParity) :
    Permutation.parity (with_parity h2 draw desired) = desired ∧
    (Permutation.parity draw ≠ desired →
      with_parity h2 draw desired =
        Permutation.compose (Permutation.swap01 n h2) draw) ∧
    (Permutation.parity draw = desired → with_parity h2 draw desired = draw) := by
  have hflip : ∀ g : Equiv.Perm (Fin n),
      Permutation.parity (Permutation.compose (Permutation.swap01 n h2) g) ≠
        Permutation.parity g := by
    intro g
    have hne : (⟨0, by omega⟩ : Fin n) ≠ ⟨1, by omega⟩ := by
      intro hc
      have hv := congrArg Fin.val hc
      simp at hv
    have hsw : Equiv.Perm.sign (Permutation.swap01 n h2) = -1 :=
      Equiv.Perm.sign_swap hne
    have hmul : Equiv.Perm.sign (Permutation.compose (Permutation.swap01 n h2) g) =
        -Equiv.Perm.sign g := by
      unfold Permutation.compose
      rw [Equiv.Perm.sign_mul, hsw, neg_one_mul]
    intro heq
    rcases Int.units_eq_one_or (Equiv.Perm.sign g) with h1 | h1
    · have hgodd : Permutation.parity g ≠ TwoParity.Odd := by
        intro hp
        rw [parity_odd_iff_sign, h1] at hp
        exact absurd hp (by decide)
      have hcodd : Permutation.parity
          (Permutation.compose (Permutation.swap01 n h2) g) = TwoParity.Odd := by
        rw [parity_odd_iff_sign, hmul, h1]
      rw [heq] at hcodd
      exact hgodd hcodd
    · have hgodd : Permutation.parity g = TwoParity.Odd := by
        rw [parity_odd_iff_sign]
        exact h1
      have hcodd : Permutation.parity
          (Permutation.compose (Permutation.swap01 n h2) g) ≠ TwoParity.Odd := by
        intro hp
        rw [parity_odd_iff_sign, hmul, h1] at hp
        exact absurd hp (by decide)
      rw [heq] at hcodd
      exact hcodd hgodd
  unfold with_parity
  by_cases hcond : desired ≠ Permutation.parity draw
  · rw [if_pos hcond]
    refine ⟨?_, fun _ => rfl, fun heq => absurd heq.symm hcond⟩
    have h1 := hflip draw
    cases hA : Permutation.parity
        (Permutation.compose (Permutation.swap01 n h2) draw) <;>
      cases hB : Permutation.parity draw <;>
        cases desired <;> simp_all
  · rw [if_neg hcond]
    push_neg at hcond
    exact ⟨hcond.symm, fun hne => absurd hcond.symm hne, fun _ => rfl⟩

/-- C7 witness: forcing odd parity on the identity draw of two elements. -/
theorem claim_with_parity_witness :
    Permutation.parity (with_parity (le_refl 2) (1 : Equiv.Perm (Fin 2))
        TwoParity.Odd) = TwoParity.Odd ∧
    (Permutation.parity (1 : Equiv.Perm (Fin 2)) ≠ TwoParity.Odd →
      with_parity (le_refl 2) (1 : Equiv.Perm (Fin 2)) TwoParity.Odd =
        Permutation.compose (Permutation.swap01 2 (le_refl 2)) 1) ∧
    (Permutation.parity (1 : Equiv.Perm (Fin 2)) = TwoParity.Odd →
      with_parity (le_refl 2) (1 : Equiv.Perm (Fin 2)) TwoParity.Odd = 1) :=
  claim_with_parity (le_refl 2) 1 TwoParity.Odd

end Twisty
